import Mathlib

/-!
Verification development for the fabric invoice analysis repository.

The Python sources are shallowly embedded over `List Char` (strings, ASCII
model of the `re` character classes) and `ℚ` (IEEE floats are modelled as
rational numbers; every arithmetic step used by the embedded code is exact
at the precision the claims mention). Each regex substitution used by
`normalize_string` in `fabric_matcher.py` is embedded as a dedicated pass
whose doc comment records the regular expression it implements.
-/

set_option maxRecDepth 100000

/-- ASCII model of the regex class `\w` (alphanumeric or underscore). -/
def isWordCh (c : Char) : Bool := c.isAlphanum || c = '_'

/-- ASCII model of the regex class `\s` (the six Python whitespace chars). -/
def isSpaceCh (c : Char) : Bool :=
  c = ' ' || c = '\t' || c = '\n' || c = '\r' || c = '\x0b' || c = '\x0c'

/-- The regex class `\d`. -/
def isDigitCh (c : Char) : Bool := c.isDigit

/-- The regex class `[A-Z]`. -/
def isUpperAZ (c : Char) : Bool := 'A' ≤ c && c ≤ 'Z'

/-- The regex class `[a-z]`. -/
def isLowerAZ (c : Char) : Bool := 'a' ≤ c && c ≤ 'z'

/-- ASCII model of Python `str.lower` applied charwise. -/
def lowerCh (c : Char) : Char := if isUpperAZ c then Char.ofNat (c.toNat + 32) else c

/-- View a Lean string literal as the `List Char` the embedding works on. -/
def str (s : String) : List Char := s.data

/-- Is the optional character (the one just before the current position) a
word character?  `none` stands for the start of the string. -/
def isWordOpt : Option Char → Bool
  | none => false
  | some c => isWordCh c

/-- Concatenate a list of character runs. -/
def catList (ls : List (List Char)) : List Char := ls.foldr (· ++ ·) []

/-- Worker for `chunksBy`: `r` is the last character of the run being
accumulated, `acc` holds that run reversed. -/
def chunksGo (cl : Char → Bool) : Char → List Char → List Char → List (List Char)
  | _, acc, [] => [acc.reverse]
  | r, acc, c :: cs =>
    if cl c == cl r then chunksGo cl r (c :: acc) cs
    else acc.reverse :: chunksGo cl c [c] cs

/-- Split a string into maximal runs of characters sharing the value of the
classifier `cl` (the word-run / space-run decomposition regex word
boundaries are defined by). -/
def chunksBy (cl : Char → Bool) : List Char → List (List Char)
  | [] => []
  | c :: cs => chunksGo cl c [c] cs

/-- `re.sub(r"\b\d{1,2}\b", " ", s)`: a match is exactly a maximal word-run
consisting only of digits, of length 1 or 2 (inside a longer word-run there
is no `\b`). Each match is replaced by a single space. -/
def sub_digits12 (s : List Char) : List Char :=
  catList ((chunksBy isWordCh s).map fun g =>
    if g ≠ [] ∧ g.length ≤ 2 ∧ g.all isDigitCh = true then [' '] else g)

/-- `re.sub(r"\b5%\b", " ", s)`: matches `5%` whose predecessor is a
non-word character (or the start) and whose successor is a word character
(the trailing `\b` sits after the non-word `%`). -/
def sub_five_pct : Option Char → List Char → List Char
  | _, [] => []
  | prev, '5' :: '%' :: c :: cs =>
    if isWordOpt prev = false ∧ isWordCh c = true then
      ' ' :: sub_five_pct (some '%') (c :: cs)
    else
      '5' :: sub_five_pct (some '5') ('%' :: c :: cs)
  | _, c :: cs => c :: sub_five_pct (some c) cs

/-- Does the string start with `[A-Z]{2}\d{2}[A-Z]{5}\d{2}` followed by a
word boundary? -/
def hsnShape (l : List Char) : Bool :=
  match l with
  | a :: b :: c :: d :: e :: f :: g :: h :: i :: j :: k :: rest =>
    isUpperAZ a && isUpperAZ b && isDigitCh c && isDigitCh d &&
    isUpperAZ e && isUpperAZ f && isUpperAZ g && isUpperAZ h && isUpperAZ i &&
    isDigitCh j && isDigitCh k && !(isWordOpt rest.head?)
  | _ => false

/-- `re.sub(r"\b[A-Z]{2}\d{2}[A-Z]{5}\d{2}\b", " ", s)` (no IGNORECASE in
`normalize_string`, so it requires genuine uppercase letters). -/
def sub_hsn : Option Char → List Char → List Char
  | _, [] => []
  | prev, a :: b :: c :: d :: e :: f :: g :: h :: i :: j :: k :: rest =>
    if isWordOpt prev = false ∧ hsnShape (a :: b :: c :: d :: e :: f :: g :: h :: i :: j :: k :: rest) = true then
      ' ' :: sub_hsn (some k) rest
    else
      a :: sub_hsn (some a) (b :: c :: d :: e :: f :: g :: h :: i :: j :: k :: rest)
  | _, c :: cs => c :: sub_hsn (some c) cs

/-- `re.sub(r"[^\w\s\-]", " ", s)`: every character that is not a word
character, whitespace, or a hyphen becomes a space. -/
def sub_punct (s : List Char) : List Char :=
  s.map fun c => if isWordCh c = false ∧ isSpaceCh c = false ∧ c ≠ '-' then ' ' else c

/-- `re.sub(r"\s+", " ", s)`: each maximal whitespace run collapses to one
space. -/
def collapse_ws (s : List Char) : List Char :=
  catList ((chunksBy isSpaceCh s).map fun g =>
    if g.head?.elim false isSpaceCh = true then [' '] else g)

/-- Python `str.strip()`. -/
def stripWs (s : List Char) : List Char :=
  (s.dropWhile isSpaceCh).rdropWhile isSpaceCh

/-- `re.sub(r"^[-]+|[-]+$", "", s)`: removes the maximal leading hyphen run
and the maximal hyphen run at the end of the string (`$` also matches just
before a single trailing newline). -/
def sub_edge_hyphens (s : List Char) : List Char :=
  let s1 := s.dropWhile (· = '-')
  match s1.getLast? with
  | some '\n' => (s1.dropLast.rdropWhile (· = '-')) ++ ['\n']
  | _ => s1.rdropWhile (· = '-')

/-- `normalize_string` from `fabric_matcher.py`: lowercase, then the five
noise-pattern substitutions in their loop order (isolated 1–2 digit
numbers, `5%`, HSN codes, punctuation, whitespace), then the final
whitespace collapse + strip, then the leading/trailing hyphen removal. -/
def normalize_string (s : List Char) : List Char :=
  sub_edge_hyphens (stripWs (collapse_ws (collapse_ws
    (sub_punct (sub_hsn none (sub_five_pct none
      (sub_digits12 (s.map lowerCh))))))))

/-- Python `str.split()` (split on whitespace runs, dropping empty parts). -/
def pySplit (s : List Char) : List (List Char) :=
  (chunksBy isSpaceCh s).filter fun g => g.head?.elim false isSpaceCh = false

/-- `tokenize_string` from `fabric_matcher.py`: normalize, split on
whitespace, keep only tokens of length ≥ 2. -/
def tokenize_string (s : List Char) : List (List Char) :=
  (pySplit (normalize_string s)).filter fun t => 2 ≤ t.length

/-! ## Matching engine (`fabric_matcher.py`) -/

/-- `DatabaseFabric` (the `additional_fields` dict is irrelevant to every
claim and omitted). -/
structure DatabaseFabric where
  material_name : List Char
  default_purchase_price : ℚ
deriving DecidableEq

/-- `ParsedFabric` from `fabric_matcher.py`. -/
structure ParsedFabric where
  material_name : List Char
  quantity : ℚ
  rate : ℚ
  amount : ℚ
  source_invoice : List Char
deriving DecidableEq

/-- The `match_algorithm` strings of `match_fabric`. -/
inductive MatchAlgorithm where
  | EXACT_MATCH | PREFIX_BASED_MATCH | SUBSTRING_MATCH | FUZZY_MATCH | SEMANTIC_MATCH | NO_MATCH
deriving DecidableEq

/-- The `confidence_level` strings. -/
inductive ConfidenceLevel where
  | HIGH | MEDIUM | LOW | NO_MATCH
deriving DecidableEq

/-- Checked division used to model Python `/`: `Except.error` is a
`ZeroDivisionError`. -/
def pctOfQ (diff p : ℚ) : Except Unit ℚ :=
  if p = 0 then Except.error () else Except.ok (diff / p * 100)

/-- Python `min` on two floats (kernel-reducible, unlike the lattice `min`). -/
def qmin (a b : ℚ) : ℚ := if a ≤ b then a else b

/-- Python `max` on two ints (kernel-reducible, unlike the lattice `max`). -/
def nmax (a b : ℕ) : ℕ := if b ≤ a then a else b

/-- `max` on two rationals, kernel-reducible. -/
def qmax (a b : ℚ) : ℚ := if b ≤ a then a else b

/-- `MatchResult` from `fabric_matcher.py`. -/
structure MatchResult where
  parsed_fabric : ParsedFabric
  database_fabric : Option DatabaseFabric
  match_score : ℚ
  match_algorithm : MatchAlgorithm
  confidence_level : ConfidenceLevel
  suggested_price : Option ℚ
  price_difference : Option ℚ
  price_difference_percent : Option ℚ
deriving DecidableEq

/-- The matcher's `db_index`: a Python 3.7+ dict is insertion-ordered, and
assigning to an existing key replaces the value in place. -/
abbrev DbIndex := List (List Char × DatabaseFabric)

/-- `index[k] = v` on an insertion-ordered dict. -/
def insertIdx (k : List Char) (v : DatabaseFabric) : DbIndex → DbIndex
  | [] => [(k, v)]
  | (k', v') :: rest => if k' = k then (k', v) :: rest else (k', v') :: insertIdx k v rest

/-- One loop iteration of `FabricMatcher._build_index`: normalize the
name, skip empty keys, assign into the dict (overwriting any previous
entry with the same key). -/
def buildStep (idx : DbIndex) (fab : DatabaseFabric) : DbIndex :=
  let normalized := normalize_string fab.material_name
  if normalized ≠ [] then insertIdx normalized fab idx else idx

/-- `FabricMatcher._build_index`. -/
def build_index (fabrics : List DatabaseFabric) : DbIndex :=
  fabrics.foldl buildStep []

/-- Dict lookup (`normalized_parsed in self.db_index` / subscript). -/
def lookupIdx (idx : DbIndex) (k : List Char) : Option DatabaseFabric :=
  match idx with
  | [] => none
  | (k', v) :: rest => if k' = k then some v else lookupIdx rest k

/-- `FabricMatcher.exact_match`. -/
def exact_match (idx : DbIndex) (parsed_name : List Char) : Option (DatabaseFabric × ℚ) :=
  match lookupIdx idx (normalize_string parsed_name) with
  | some fab => some (fab, 100)
  | none => none

/-- Python `needle in hay` (contiguous substring containment). -/
def containsSub (needle : List Char) : List Char → Bool
  | [] => needle.isEmpty
  | c :: cs => needle.isPrefixOf (c :: cs) || containsSub needle cs

/-- `len(a & b)` for Python sets modelled as deduplicated lists. -/
def setInterLen (a b : List (List Char)) : ℕ := (a.filter (fun t => t ∈ b)).length

/-- `len(a | b)` for Python sets modelled as deduplicated lists. -/
def setUnionLen (a b : List (List Char)) : ℕ :=
  a.length + (b.filter (fun t => ¬ t ∈ a)).length

/-- The stop-token set removed from catalog tokens in `substring_match`. -/
def stop_tokens : List (List Char) :=
  [str "a", str "h", str "s", str "home", str "ddecor", str "sujan"]

/-- One iteration of the `substring_match` loop: the two containment
branches (`if`/`elif`) followed by the independent token-overlap branch,
each updating the running best on a strictly greater score.
(The Python raises ZeroDivisionError when both strings compared by the
containment branch are empty — impossible for index keys, which are
nonempty; the model's `ℚ` division returns 0 there.) -/
def substrStep (np : List Char) (pt : List (List Char))
    (best : Option DatabaseFabric × ℚ) (kv : List Char × DatabaseFabric) :
    Option DatabaseFabric × ℚ :=
  let dbName := kv.1
  let best1 :=
    if containsSub np dbName then
      let score := qmin 95 (80 + ((np.length : ℚ) / (dbName.length : ℚ)) * 20)
      if best.2 < score then (some kv.2, score) else best
    else if containsSub dbName np then
      let score := qmin 95 (80 + ((dbName.length : ℚ) / (np.length : ℚ)) * 20)
      if best.2 < score then (some kv.2, score) else best
    else best
  let dbTokens := (tokenize_string dbName).dedup
  if pt ≠ [] ∧ dbTokens ≠ [] then
    let dbClean := dbTokens.filter (fun t => ¬ t ∈ stop_tokens)
    let overlap := setInterLen pt dbClean
    let total := setUnionLen pt dbClean
    if 0 < overlap then
      let tokenScore : ℚ := ((overlap : ℚ) / (total : ℚ)) * 90
      if best1.2 < tokenScore then (some kv.2, tokenScore) else best1
    else best1
  else best1

/-- `FabricMatcher.substring_match`: full scan keeping the best candidate,
returned only when the best score reaches the 60.0 threshold. -/
def substring_match (idx : DbIndex) (parsed_name : List Char) :
    Option (DatabaseFabric × ℚ) :=
  let np := normalize_string parsed_name
  let pt := (tokenize_string parsed_name).dedup
  let best := idx.foldl (substrStep np pt) (none, 0)
  if 60 ≤ best.2 then best.1.map (fun f => (f, best.2)) else none

/-- `re.sub(r"^[a-z]\s*-\s*", "", s, flags=IGNORECASE)`: an anchored match
is a letter, the maximal following whitespace run, a hyphen, and the
maximal whitespace run after it. -/
def subPrefixLetterDash (s : List Char) : List Char :=
  match s with
  | [] => []
  | c :: cs =>
    if isLowerAZ (lowerCh c) then
      match cs.dropWhile isSpaceCh with
      | '-' :: rest => rest.dropWhile isSpaceCh
      | _ => s
    else s

/-- `re.sub(r"^[a-z]+\s*", "", s, flags=IGNORECASE)`. -/
def subPrefixWord (s : List Char) : List Char :=
  match s with
  | [] => []
  | c :: cs =>
    if isLowerAZ (lowerCh c) then
      (cs.dropWhile (fun d => isLowerAZ (lowerCh d))).dropWhile isSpaceCh
    else s

/-- The prefix-token set of `prefix_based_match`. -/
def prefix_tokens_set : List (List Char) :=
  [str "a", str "h", str "s", str "home", str "ddecor", str "sujan", str "agora"]

/-- One iteration of the `prefix_based_match` loop.
(As for `substrStep`, the Python divides by `max(len,len)`, which raises
when both operands are empty; the model returns 0 for that division.) -/
def prefixStep (np : List Char) (pt : List (List Char))
    (best : Option DatabaseFabric × ℚ) (kv : List Char × DatabaseFabric) :
    Option DatabaseFabric × ℚ :=
  let dbName := kv.1
  let clean := subPrefixWord (subPrefixLetterDash dbName)
  let best1 :=
    if containsSub np clean || containsSub clean np then
      let score := qmin 95 (85 + ((np.length : ℚ) / ((nmax clean.length np.length : ℕ) : ℚ)) * 15)
      if best.2 < score then (some kv.2, score) else best
    else best
  let dbTokens := (tokenize_string dbName).dedup
  if pt ≠ [] ∧ dbTokens ≠ [] then
    let dbClean := dbTokens.filter (fun t => ¬ (t.map lowerCh) ∈ prefix_tokens_set)
    if dbClean ≠ [] then
      let overlap := setInterLen pt dbClean
      let total := setUnionLen pt dbClean
      if 2 ≤ overlap then
        let tokenScore : ℚ := ((overlap : ℚ) / (total : ℚ)) * 95
        if best1.2 < tokenScore then (some kv.2, tokenScore) else best1
      else best1
    else best1
  else best1

/-- `FabricMatcher.prefix_based_match`: threshold 70.0. -/
def prefix_based_match (idx : DbIndex) (parsed_name : List Char) :
    Option (DatabaseFabric × ℚ) :=
  let np := normalize_string parsed_name
  let pt := (tokenize_string parsed_name).dedup
  let best := idx.foldl (prefixStep np pt) (none, 0)
  if 70 ≤ best.2 then best.1.map (fun f => (f, best.2)) else none

/-- The per-pair score of `fuzzy_match` is the unweighted average of seven
similarity scores computed by external libraries (difflib, jellyfish,
fuzzywuzzy) that are not part of this repository; it is abstracted as an
oracle parameter. -/
abbrev FuzzyOracle := List Char → List Char → ℚ

/-- One iteration of the `fuzzy_match` loop. -/
def fuzzyStep (oracle : FuzzyOracle) (np : List Char)
    (best : Option DatabaseFabric × ℚ) (kv : List Char × DatabaseFabric) :
    Option DatabaseFabric × ℚ :=
  let avg := oracle np kv.1
  if best.2 < avg then (some kv.2, avg) else best

/-- `FabricMatcher.fuzzy_match`: threshold 70.0. -/
def fuzzy_match (oracle : FuzzyOracle) (idx : DbIndex) (parsed_name : List Char) :
    Option (DatabaseFabric × ℚ) :=
  let np := normalize_string parsed_name
  let best := idx.foldl (fuzzyStep oracle np) (none, 0)
  if 70 ≤ best.2 then best.1.map (fun f => (f, best.2)) else none

/-- Fabric-type keywords of `semantic_match`. -/
def fabric_types : List (List Char) :=
  [str "cotton", str "silk", str "wool", str "linen", str "polyester",
   str "rayon", str "nylon", str "acrylic"]

/-- Color keywords of `semantic_match`. -/
def color_keywords : List (List Char) :=
  [str "red", str "blue", str "green", str "yellow", str "black", str "white",
   str "brown", str "pink", str "purple", str "orange", str "gray", str "grey"]

/-- Pattern keywords of `semantic_match`. -/
def pattern_keywords : List (List Char) :=
  [str "striped", str "checked", str "floral", str "geometric", str "solid",
   str "print", str "embroidery"]

/-- One keyword loop of `semantic_match`: accumulates `(score, total)` over
the parsed token list (a list, so duplicate tokens count twice). -/
def semLoop (kws : List (List Char)) (w : ℚ) (pts db : List (List Char)) : ℚ × ℕ :=
  pts.foldl (fun acc t =>
    if t ∈ kws then ((if t ∈ db then acc.1 + w else acc.1), acc.2 + 1) else acc) (0, 0)

/-- One iteration of the `semantic_match` loop. -/
def semanticStep (pts : List (List Char))
    (best : Option DatabaseFabric × ℚ) (kv : List Char × DatabaseFabric) :
    Option DatabaseFabric × ℚ :=
  let db := tokenize_string kv.1
  let f := semLoop fabric_types 25 pts db
  let c := semLoop color_keywords 20 pts db
  let p := semLoop pattern_keywords 15 pts db
  let score := f.1 + c.1 + p.1
  let total := f.2 + c.2 + p.2
  if 0 < total then
    let semanticScore := score / (total : ℚ) * 100
    if best.2 < semanticScore then (some kv.2, semanticScore) else best
  else best

/-- `FabricMatcher.semantic_match`: threshold 50.0. -/
def semantic_match (idx : DbIndex) (parsed_name : List Char) :
    Option (DatabaseFabric × ℚ) :=
  let pts := tokenize_string parsed_name
  let best := idx.foldl (semanticStep pts) (none, 0)
  if 50 ≤ best.2 then best.1.map (fun f => (f, best.2)) else none

/-- `FabricMatcher._create_match_result`: the price fields are computed
only when both the suggested price and the parsed rate are truthy
(non-zero); the division is the checked `pctOfQ`, whose `.toOption` is
always `some` here because the guard makes the divisor nonzero. -/
def _create_match_result (pf : ParsedFabric) (db : Option DatabaseFabric)
    (score : ℚ) (alg : MatchAlgorithm) (conf : ConfidenceLevel) : MatchResult :=
  let suggested : Option ℚ := db.map (·.default_purchase_price)
  let pd : Option ℚ :=
    match suggested with
    | some p => if p ≠ 0 ∧ pf.rate ≠ 0 then some (|pf.rate - p|) else none
    | none => none
  let pdp : Option ℚ :=
    match suggested with
    | some p => if p ≠ 0 ∧ pf.rate ≠ 0 then (pctOfQ (|pf.rate - p|) p).toOption else none
    | none => none
  ⟨pf, db, score, alg, conf, suggested, pd, pdp⟩

/-- `FabricMatcher.match_fabric`: the five-strategy cascade in source
order, first qualifying strategy wins. -/
def match_fabric (oracle : FuzzyOracle) (idx : DbIndex) (pf : ParsedFabric) : MatchResult :=
  match exact_match idx pf.material_name with
  | some (db, score) => _create_match_result pf (some db) score .EXACT_MATCH .HIGH
  | none =>
  match prefix_based_match idx pf.material_name with
  | some (db, score) =>
      _create_match_result pf (some db) score .PREFIX_BASED_MATCH
        (if 85 ≤ score then .HIGH else .MEDIUM)
  | none =>
  match substring_match idx pf.material_name with
  | some (db, score) =>
      _create_match_result pf (some db) score .SUBSTRING_MATCH
        (if 85 ≤ score then .HIGH else .MEDIUM)
  | none =>
  match fuzzy_match oracle idx pf.material_name with
  | some (db, score) =>
      _create_match_result pf (some db) score .FUZZY_MATCH
        (if 85 ≤ score then .HIGH else .MEDIUM)
  | none =>
  match semantic_match idx pf.material_name with
  | some (db, score) =>
      _create_match_result pf (some db) score .SEMANTIC_MATCH
        (if 70 ≤ score then .MEDIUM else .LOW)
  | none => _create_match_result pf none 0 .NO_MATCH .NO_MATCH

/-- A trivially computable oracle used for concrete counterexamples whose
outcome does not depend on the fuzzy scores. -/
def oracle0 : FuzzyOracle := fun _ _ => 0

/-! ## Price comparator (`app.py`, `analyze_invoice` lines 104-138) -/

/-- The six status buckets of the price-difference chain. -/
inductive PriceBucket where
  | EXACT | MINOR | SMALL | MODERATE | SIGNIFICANT | MAJOR
deriving DecidableEq

/-- The `price_analysis` record built by `analyze_invoice`. -/
structure PriceAnalysis where
  invoice_rate : ℚ
  database_price : ℚ
  difference : ℚ
  difference_percentage : ℚ
  bucket : PriceBucket
deriving DecidableEq

/-- Python truthiness of an optional float. -/
def optTruthy : Option ℚ → Bool
  | none => false
  | some x => x ≠ 0

/-- The `if price_diff_pct == 0 / elif <= 2 / <= 5 / <= 10 / <= 25 / else`
chain of `analyze_invoice` (each status string is rendered as a bucket
constructor: EXACT MATCH, MINOR, SMALL, MODERATE, SIGNIFICANT, MAJOR
DIFFERENCE). -/
def bucketOf (pct : ℚ) : PriceBucket :=
  if pct = 0 then .EXACT
  else if pct ≤ 2 then .MINOR
  else if pct ≤ 5 then .SMALL
  else if pct ≤ 10 then .MODERATE
  else if pct ≤ 25 then .SIGNIFICANT
  else .MAJOR

/-- The price-comparison block of `analyze_invoice`: it runs only under
`if item.rate and csv_price:` (both truthy); otherwise no price analysis is
produced for the item. The division is the checked `pctOfQ`, so freedom
from ZeroDivisionError is provable. -/
def classify_price (rate : Option ℚ) (csv_price : ℚ) :
    Except Unit (Option PriceAnalysis) :=
  if optTruthy rate = true ∧ csv_price ≠ 0 then
    match rate with
    | some r => do
        let diff := |r - csv_price|
        let pct ← pctOfQ diff csv_price
        Except.ok (some ⟨r, csv_price, diff, pct, bucketOf pct⟩)
    | none => Except.ok none
  else Except.ok none

example : normalize_string (str "  NEW ROYAL  ") = str "new royal" := by decide
example : normalize_string (str "CASSIA - 101") = str "cassia - 101" := by decide
example : normalize_string (str "a -") = str "a " := by decide
example : normalize_string (str "a ") = str "a" := by decide
example : normalize_string (str "Agora, 5% tax 12") = str "agora tax" := by decide
example : tokenize_string (str "a new royal") = [str "new", str "royal"] := by decide

example :
    build_index [⟨str "VELVET", 10⟩, ⟨str "VELVET", 20⟩] =
      [(str "velvet", ⟨str "VELVET", 20⟩)] := by decide

example :
    (match_fabric oracle0 (build_index [⟨str "NEW ROYAL", 549⟩])
      ⟨str "NEW ROYAL", 1, 500, 500, []⟩).match_algorithm = .EXACT_MATCH := by decide

example :
    (match_fabric oracle0 (build_index [⟨str "a -", 10⟩])
      ⟨normalize_string (str "a -"), 1, 500, 500, []⟩).match_algorithm
      = .PREFIX_BASED_MATCH := by with_unfolding_all decide

/-! ## Spec-side substring scoring (claim C7) -/

/-- Spec-level containment score of one catalog candidate: accepted when
the normalized parsed name is wholly contained in the catalog name or vice
versa, scoring `min(95, 80 + coverage_ratio * 20)`; 0 when not accepted. -/
def substrContScore (np dbName : List Char) : ℚ :=
  if containsSub np dbName then
    qmin 95 (80 + ((np.length : ℚ) / (dbName.length : ℚ)) * 20)
  else if containsSub dbName np then
    qmin 95 (80 + ((dbName.length : ℚ) / (np.length : ℚ)) * 20)
  else 0

/-- Spec-level token-overlap score of one catalog candidate: accepted when
the token overlap (after removing the stop-token set from the catalog
tokens) is nonzero, scoring `overlap/union * 90`; 0 when not accepted. -/
def substrTokScore (pt : List (List Char)) (dbName : List Char) : ℚ :=
  let dbTokens := (tokenize_string dbName).dedup
  if pt ≠ [] ∧ dbTokens ≠ [] then
    let dbClean := dbTokens.filter (fun t => ¬ t ∈ stop_tokens)
    if 0 < setInterLen pt dbClean then
      ((setInterLen pt dbClean : ℚ) / (setUnionLen pt dbClean : ℚ)) * 90
    else 0
  else 0

/-- Spec-level score of one candidate: the better of its containment score
and its token-overlap score. -/
def substrPairScore (np : List Char) (pt : List (List Char))
    (kv : List Char × DatabaseFabric) : ℚ :=
  qmax (substrContScore np kv.1) (substrTokScore pt kv.1)

/-- Spec-level best substring score over the whole catalog. -/
def bestSubstrScore (np : List Char) (pt : List (List Char)) (idx : DbIndex) : ℚ :=
  idx.foldl (fun acc kv => qmax acc (substrPairScore np pt kv)) 0

theorem qmax_assoc (a b c : ℚ) : qmax (qmax a b) c = qmax a (qmax b c) := by
  unfold qmax
  split_ifs <;> linarith

theorem le_qmax_left (a b : ℚ) : a ≤ qmax a b := by
  unfold qmax
  split_ifs <;> linarith

theorem qmax_zero_of_nonneg (a : ℚ) (h : 0 ≤ a) : qmax a 0 = a := by
  unfold qmax
  split_ifs <;> linarith

theorem substrContScore_nonneg (np k : List Char) : 0 ≤ substrContScore np k := by
  unfold substrContScore qmin
  have h1 : (0 : ℚ) ≤ (np.length : ℚ) / (k.length : ℚ) :=
    div_nonneg (Nat.cast_nonneg _) (Nat.cast_nonneg _)
  have h2 : (0 : ℚ) ≤ (k.length : ℚ) / (np.length : ℚ) :=
    div_nonneg (Nat.cast_nonneg _) (Nat.cast_nonneg _)
  split_ifs <;> linarith

theorem substrTokScore_nonneg (pt : List (List Char)) (k : List Char) :
    0 ≤ substrTokScore pt k := by
  unfold substrTokScore
  dsimp only
  have h1 : (0 : ℚ) ≤ ((setInterLen pt ((tokenize_string k).dedup.filter
      (fun t => ¬ t ∈ stop_tokens)) : ℚ) /
      (setUnionLen pt ((tokenize_string k).dedup.filter (fun t => ¬ t ∈ stop_tokens)) : ℚ)) * 90 :=
    mul_nonneg (div_nonneg (Nat.cast_nonneg _) (Nat.cast_nonneg _)) (by norm_num)
  split_ifs <;> first | linarith | rfl

theorem qmin95_nonneg (x : ℚ) (h : 0 ≤ x) : 0 ≤ qmin 95 x := by
  unfold qmin
  split_ifs <;> linarith

set_option maxHeartbeats 2000000 in
/-- One loop iteration of `substring_match` raises the running best score
exactly to the max of the old best and the candidate's spec-level score. -/
theorem substrStep_snd (np : List Char) (pt : List (List Char))
    (m : Option DatabaseFabric) (s : ℚ) (kv : List Char × DatabaseFabric)
    (hs : 0 ≤ s) :
    (substrStep np pt (m, s) kv).2 = qmax s (substrPairScore np pt kv) := by
  have hq1 : (0:ℚ) ≤ qmin 95 (80 + ((np.length : ℚ) / (kv.1.length : ℚ)) * 20) :=
    qmin95_nonneg _ (by positivity)
  have hq2 : (0:ℚ) ≤ qmin 95 (80 + ((kv.1.length : ℚ) / (np.length : ℚ)) * 20) :=
    qmin95_nonneg _ (by positivity)
  have htok : (0:ℚ) ≤ ((setInterLen pt ((tokenize_string kv.1).dedup.filter
        (fun t => ¬ t ∈ stop_tokens)) : ℚ) /
      (setUnionLen pt ((tokenize_string kv.1).dedup.filter
        (fun t => ¬ t ∈ stop_tokens)) : ℚ)) * 90 :=
    mul_nonneg (div_nonneg (Nat.cast_nonneg _) (Nat.cast_nonneg _)) (by norm_num)
  unfold substrStep substrPairScore substrContScore substrTokScore qmax
  dsimp only
  split_ifs <;> first | rfl | linarith

set_option maxHeartbeats 2000000 in
/-- One loop iteration never lowers the score and keeps the
"no candidate yet means score 0" invariant. -/
theorem substrStep_preserves (np : List Char) (pt : List (List Char))
    (m : Option DatabaseFabric) (s : ℚ) (kv : List Char × DatabaseFabric)
    (h0 : m = none → s = 0) (hs : 0 ≤ s) :
    ((substrStep np pt (m, s) kv).1 = none → (substrStep np pt (m, s) kv).2 = 0) ∧
    0 ≤ (substrStep np pt (m, s) kv).2 := by
  have hq1 : (0:ℚ) ≤ qmin 95 (80 + ((np.length : ℚ) / (kv.1.length : ℚ)) * 20) :=
    qmin95_nonneg _ (by positivity)
  have hq2 : (0:ℚ) ≤ qmin 95 (80 + ((kv.1.length : ℚ) / (np.length : ℚ)) * 20) :=
    qmin95_nonneg _ (by positivity)
  have htok : (0:ℚ) ≤ ((setInterLen pt ((tokenize_string kv.1).dedup.filter
        (fun t => ¬ t ∈ stop_tokens)) : ℚ) /
      (setUnionLen pt ((tokenize_string kv.1).dedup.filter
        (fun t => ¬ t ∈ stop_tokens)) : ℚ)) * 90 :=
    mul_nonneg (div_nonneg (Nat.cast_nonneg _) (Nat.cast_nonneg _)) (by norm_num)
  unfold substrStep
  dsimp only
  split_ifs <;> constructor <;> first | (intro h; simp_all) | simp_all | linarith

/-- The fold of `substring_match` computes the spec-level best score. -/
theorem substr_foldl_snd (np : List Char) (pt : List (List Char)) :
    ∀ (idx : DbIndex) (m : Option DatabaseFabric) (s : ℚ), 0 ≤ s →
      (idx.foldl (substrStep np pt) (m, s)).2 =
        idx.foldl (fun acc kv => qmax acc (substrPairScore np pt kv)) s := by
  intro idx
  induction idx with
  | nil => intros; rfl
  | cons kv idx ih =>
    intro m s hs
    rw [List.foldl_cons, List.foldl_cons]
    rcases h' : substrStep np pt (m, s) kv with ⟨m', s'⟩
    have hsnd := substrStep_snd np pt m s kv hs
    rw [h'] at hsnd
    have hsnd' : s' = qmax s (substrPairScore np pt kv) := by simpa using hsnd
    have hs' : 0 ≤ s' := hsnd' ▸ le_trans hs (le_qmax_left _ _)
    rw [ih m' s' hs', hsnd']

/-- The fold of `substring_match` keeps the invariant "no candidate yet
means score 0" and score nonnegativity. -/
theorem substr_foldl_inv (np : List Char) (pt : List (List Char)) :
    ∀ (idx : DbIndex) (m : Option DatabaseFabric) (s : ℚ), (m = none → s = 0) → 0 ≤ s →
      (((idx.foldl (substrStep np pt) (m, s)).1 = none →
        (idx.foldl (substrStep np pt) (m, s)).2 = 0)) ∧
      0 ≤ (idx.foldl (substrStep np pt) (m, s)).2 := by
  intro idx
  induction idx with
  | nil => intro m s h0 hs; exact ⟨h0, hs⟩
  | cons kv idx ih =>
    intro m s h0 hs
    rw [List.foldl_cons]
    rcases h' : substrStep np pt (m, s) kv with ⟨m', s'⟩
    have hpres := substrStep_preserves np pt m s kv h0 hs
    rw [h'] at hpres
    exact ih m' s' hpres.1 hpres.2

/-! ## Claim C2 -/

/-- C2, counterexample to the claim as stated: an invoice rate of 0 is
non-null, and with catalog price 100 the claimed formula would give a 100%
difference (bucket MAJOR); the code's guard `if item.rate and csv_price:`
is a truthiness test, so it computes no price analysis at all. -/
theorem c2_counterexample :
    classify_price (some 0) 100 = Except.ok none ∧
    ∀ a, classify_price (some 0) 100 ≠ Except.ok (some a) := by
  have h : classify_price (some 0) 100 = Except.ok none := by
    with_unfolding_all rfl
  refine ⟨h, ?_⟩
  intro a ha
  rw [h] at ha
  exact Option.noConfusion (Except.ok.inj ha)

/-- C2 (amended: the invoice rate must be truthy, i.e. nonzero, not merely
non-null): for a nonzero invoice rate and positive catalog price the code
computes `difference_pct = |rate - price| / price * 100` and maps it to
buckets with inclusive upper bounds 0 / 2 / 5 / 10 / 25; `classify(p, p)`
yields EXACT with percentage 0 for `p > 0`; a 2.00% difference is MINOR and
a 2.01% difference is SMALL. -/
theorem c2_bucket_thresholds (r p : ℚ) (hr : r ≠ 0) (hp : 0 < p) :
    classify_price (some r) p =
      Except.ok (some ⟨r, p, |r - p|, |r - p| / p * 100, bucketOf (|r - p| / p * 100)⟩) ∧
    (∀ pct : ℚ,
      (pct = 0 → bucketOf pct = .EXACT) ∧
      (0 < pct → pct ≤ 2 → bucketOf pct = .MINOR) ∧
      (2 < pct → pct ≤ 5 → bucketOf pct = .SMALL) ∧
      (5 < pct → pct ≤ 10 → bucketOf pct = .MODERATE) ∧
      (10 < pct → pct ≤ 25 → bucketOf pct = .SIGNIFICANT) ∧
      (25 < pct → bucketOf pct = .MAJOR)) ∧
    classify_price (some p) p = Except.ok (some ⟨p, p, 0, 0, .EXACT⟩) ∧
    bucketOf 2 = .MINOR ∧ bucketOf (201 / 100) = .SMALL := by
  have hbuckets : ∀ pct : ℚ,
      (pct = 0 → bucketOf pct = .EXACT) ∧
      (0 < pct → pct ≤ 2 → bucketOf pct = .MINOR) ∧
      (2 < pct → pct ≤ 5 → bucketOf pct = .SMALL) ∧
      (5 < pct → pct ≤ 10 → bucketOf pct = .MODERATE) ∧
      (10 < pct → pct ≤ 25 → bucketOf pct = .SIGNIFICANT) ∧
      (25 < pct → bucketOf pct = .MAJOR) := by
    intro pct
    unfold bucketOf
    refine ⟨?_, ?_, ?_, ?_, ?_, ?_⟩ <;> intros <;> split_ifs <;> first | rfl | linarith
  have hrun : ∀ q : ℚ, q ≠ 0 →
      classify_price (some q) p =
        Except.ok (some ⟨q, p, |q - p|, |q - p| / p * 100, bucketOf (|q - p| / p * 100)⟩) := by
    intro q hq
    unfold classify_price
    rw [if_pos ⟨by simp [optTruthy, hq], hp.ne.symm⟩]
    simp only [pctOfQ]
    rw [if_neg hp.ne.symm]
    rfl
  refine ⟨hrun r hr, hbuckets, ?_, ?_, ?_⟩
  · rw [hrun p hp.ne.symm]
    norm_num [bucketOf]
  · norm_num [bucketOf]
  · norm_num [bucketOf]

/-- Witness for C2 at rate 102, price 100 (a 2.00% difference, bucket
MINOR). -/
theorem c2_bucket_thresholds_witness :
    classify_price (some 102) 100 =
      Except.ok (some ⟨102, 100, 2, 2, .MINOR⟩) := by
  have h := (c2_bucket_thresholds 102 100 (by norm_num) (by norm_num)).1
  rw [h]
  norm_num [bucketOf]

/-! ## Claim C8 -/

/-- C8, counterexample to the claim as stated: for invoice rate 5 and
catalog price 0 the claim says the percentage difference "is treated as 0"
(which would classify as EXACT); the code instead skips the whole price
analysis, producing no percentage at all. -/
theorem c8_counterexample :
    classify_price (some 5) 0 = Except.ok none ∧
    ∀ a, ¬ (classify_price (some 5) 0 = Except.ok (some a) ∧
            a.difference_percentage = 0) := by
  have h : classify_price (some 5) 0 = Except.ok none := by
    with_unfolding_all rfl
  refine ⟨h, ?_⟩
  intro a ⟨ha, _⟩
  rw [h] at ha
  exact Option.noConfusion (Except.ok.inj ha)

/-- C8 (amended: for every invoice rate and catalog price the comparison
completes without raising — in particular it never divides by zero — and
when the catalog price is 0 the comparison is skipped: no percentage is
computed, both in `analyze_invoice` and in
`FabricMatcher._create_match_result`). -/
theorem c8_total_no_div0 (rate : Option ℚ) (p : ℚ) :
    (∃ r, classify_price rate p = Except.ok r) ∧
    (p = 0 → classify_price rate p = Except.ok none) ∧
    (∀ pf score alg conf,
      (_create_match_result pf (some ⟨[], 0⟩) score alg conf).price_difference_percent = none ∧
      (_create_match_result pf (some ⟨[], 0⟩) score alg conf).price_difference = none) := by
  refine ⟨?_, ?_, ?_⟩
  · unfold classify_price
    split_ifs with h
    · rcases rate with _ | r
      · simp [optTruthy] at h
      · refine ⟨some ⟨r, p, |r - p|, |r - p| / p * 100, bucketOf (|r - p| / p * 100)⟩, ?_⟩
        simp only [pctOfQ]
        rw [if_neg h.2]
        rfl
    · exact ⟨none, rfl⟩
  · intro hp
    unfold classify_price
    rw [if_neg]
    rintro ⟨-, h0⟩
    exact h0 hp
  · intro pf score alg conf
    simp [_create_match_result]

/-- Witness for C8 at rate 5, price 0. -/
theorem c8_total_no_div0_witness :
    classify_price (some 5) 0 = Except.ok none ∧
    (_create_match_result ⟨[], 1, 5, 5, []⟩ (some ⟨[], 0⟩) 0 .NO_MATCH
      .NO_MATCH).price_difference_percent = none :=
  ⟨(c8_total_no_div0 (some 5) 0).2.1 rfl,
   ((c8_total_no_div0 (some 5) 0).2.2 ⟨[], 1, 5, 5, []⟩ 0 .NO_MATCH .NO_MATCH).1⟩

/-! ## Index characterization (helpers shared by several claims) -/

/-- First-of-two options (used to state how lookups fall back). -/
def orLookup (o fallback : Option DatabaseFabric) : Option DatabaseFabric :=
  match o with
  | some v => some v
  | none => fallback

theorem lookupIdx_insertIdx (k k' : List Char) (v : DatabaseFabric) :
    ∀ idx : DbIndex,
      lookupIdx (insertIdx k' v idx) k = if k' = k then some v else lookupIdx idx k := by
  intro idx
  induction idx with
  | nil =>
    by_cases h : k' = k <;> simp [insertIdx, lookupIdx, h]
  | cons kv rest ih =>
    obtain ⟨k0, v0⟩ := kv
    by_cases h0 : k0 = k'
    · subst h0
      by_cases h1 : k0 = k <;> simp [insertIdx, lookupIdx, h1]
    · by_cases h1 : k0 = k
      · subst h1
        have h2 : ¬ k' = k0 := fun h => h0 h.symm
        simp [insertIdx, lookupIdx, h0, h2]
      · simp [insertIdx, lookupIdx, h0, h1, ih]

theorem lookupIdx_buildStep (k : List Char) (hk : k ≠ []) (idx : DbIndex)
    (e : DatabaseFabric) :
    lookupIdx (buildStep idx e) k =
      if normalize_string e.material_name = k then some e else lookupIdx idx k := by
  simp only [buildStep]
  by_cases he : normalize_string e.material_name = k
  · have hne : normalize_string e.material_name ≠ [] := by rw [he]; exact hk
    rw [if_pos hne, lookupIdx_insertIdx, if_pos he]
  · rw [if_neg he]
    split_ifs with hne
    · rw [lookupIdx_insertIdx, if_neg he]
    · rfl

/-- After building on top of `idx`, looking up a nonempty key returns the
last entry of `es` with that normalized name, falling back to `idx`. -/
theorem lookupIdx_foldl_buildStep (k : List Char) (hk : k ≠ []) :
    ∀ (es : List DatabaseFabric) (idx : DbIndex),
      lookupIdx (es.foldl buildStep idx) k =
        orLookup (es.reverse.find? fun e => normalize_string e.material_name = k)
          (lookupIdx idx k) := by
  intro es
  induction es with
  | nil => intro idx; simp [orLookup]
  | cons e es ih =>
    intro idx
    rw [List.foldl_cons, ih, List.reverse_cons, List.find?_append]
    cases hfind : es.reverse.find? fun e => normalize_string e.material_name = k with
    | some v => simp [hfind, orLookup, Option.or]
    | none =>
      rw [lookupIdx_buildStep k hk idx e]
      by_cases he : normalize_string e.material_name = k
      · rw [List.find?_cons_of_pos _ (by simp [he]), if_pos he]
        simp [orLookup, Option.or]
      · rw [List.find?_cons_of_neg _ (by simp [he]), List.find?_nil, if_neg he]
        simp [orLookup, Option.or]

/-- Looking up a nonempty key in the built index yields the **last** entry
of the catalog whose normalized name equals the key (`None` if there is no
such entry). -/
theorem lookupIdx_build_index (es : List DatabaseFabric) (k : List Char) (hk : k ≠ []) :
    lookupIdx (build_index es) k =
      es.reverse.find? fun e => normalize_string e.material_name = k := by
  rw [build_index, lookupIdx_foldl_buildStep k hk es []]
  cases hfind : es.reverse.find? fun e => normalize_string e.material_name = k <;>
    simp [hfind, orLookup, lookupIdx]

/-- The built index never contains the empty key (entries normalizing to
the empty string are skipped). -/
theorem lookupIdx_foldl_nil :
    ∀ (es : List DatabaseFabric) (idx : DbIndex), lookupIdx idx [] = none →
      lookupIdx (es.foldl buildStep idx) [] = none := by
  intro es
  induction es with
  | nil => intro idx h; exact h
  | cons e es ih =>
    intro idx h
    rw [List.foldl_cons]
    apply ih
    simp only [buildStep]
    split_ifs with hne
    · rw [lookupIdx_insertIdx, if_neg hne]
      exact h
    · exact h

theorem lookupIdx_build_index_nil (es : List DatabaseFabric) :
    lookupIdx (build_index es) [] = none :=
  lookupIdx_foldl_nil es [] rfl

/-- `find?` is permutation-invariant when at most one element can satisfy
the predicate. -/
theorem find?_perm_of_unique {p : DatabaseFabric → Bool} {l₁ l₂ : List DatabaseFabric}
    (h : l₁.Perm l₂)
    (hu : ∀ a ∈ l₁, ∀ b ∈ l₁, p a = true → p b = true → a = b) :
    l₁.find? p = l₂.find? p := by
  cases h₁ : l₁.find? p with
  | none =>
    rw [List.find?_eq_none] at h₁
    symm
    rw [List.find?_eq_none]
    intro x hx
    exact h₁ x (h.symm.subset hx)
  | some a =>
    have hpa := List.find?_some h₁
    have hma := List.mem_of_find?_eq_some h₁
    have h2 : (l₂.find? p).isSome := List.find?_isSome.mpr ⟨a, h.subset hma, hpa⟩
    cases h₂ : l₂.find? p with
    | none => rw [h₂] at h2; simp at h2
    | some b =>
      have hpb := List.find?_some h₂
      have hmb := h.symm.subset (List.mem_of_find?_eq_some h₂)
      rw [hu a hma b hmb hpa hpb]

/-! ## Claim C5 -/

/-- C5, counterexample to the claim as stated: the catalog entries
`("VELVET", 10)` and `("VELVET", 20)` collide on the normalized name
`"velvet"`; the built index holds only the second entry — the first is
silently overwritten and reachable from no key, so it is not retained as an
independent match candidate. -/
theorem c5_counterexample :
    build_index [⟨str "VELVET", 10⟩, ⟨str "VELVET", 20⟩] =
      [(str "velvet", ⟨str "VELVET", 20⟩)] ∧
    (build_index [⟨str "VELVET", 10⟩, ⟨str "VELVET", 20⟩]).all
      (fun kv => kv.2 ≠ ⟨str "VELVET", 10⟩) = true :=
  ⟨by decide, by decide⟩

/-- C5 (amended): index construction keys entries by normalized name; for
every nonempty key the index retains exactly the LAST catalog entry with
that normalized name (a later colliding entry overwrites an earlier one,
which is dropped; entries normalizing to the empty string are skipped).
Every entry whose normalized name is nonempty and not shared with any later
entry therefore remains reachable. -/
theorem c5_last_entry_wins (es : List DatabaseFabric) (k : List Char) (hk : k ≠ []) :
    lookupIdx (build_index es) k =
      es.reverse.find? (fun e => normalize_string e.material_name = k) ∧
    (∀ e ∈ es, normalize_string e.material_name = k →
      ∃ v, lookupIdx (build_index es) k = some v ∧ v ∈ es ∧
        normalize_string v.material_name = k) := by
  refine ⟨lookupIdx_build_index es k hk, ?_⟩
  intro e he hek
  rw [lookupIdx_build_index es k hk]
  have h2 : (es.reverse.find? fun x => normalize_string x.material_name = k).isSome :=
    List.find?_isSome.mpr ⟨e, List.mem_reverse.mpr he, by simp [hek]⟩
  cases h₂ : es.reverse.find? fun x => normalize_string x.material_name = k with
  | none => rw [h₂] at h2; simp at h2
  | some v =>
    refine ⟨v, rfl, List.mem_reverse.mp (List.mem_of_find?_eq_some h₂), ?_⟩
    have := List.find?_some h₂
    simpa using this

/-- Witness for C5: with the colliding two-entry catalog the lookup yields
the later entry. -/
theorem c5_last_entry_wins_witness :
    lookupIdx (build_index [⟨str "VELVET", 10⟩, ⟨str "VELVET", 20⟩]) (str "velvet") =
      some ⟨str "VELVET", 20⟩ := by
  rw [(c5_last_entry_wins [⟨str "VELVET", 10⟩, ⟨str "VELVET", 20⟩] (str "velvet")
    (by decide)).1]
  decide

/-! ## Claim C6 -/

/-- C6, counterexample to the claim as stated: two catalogs holding the
same multiset of entries (swapped order) give different matched entries for
the same parsed name, because the two entries collide on their normalized
name and the index keeps whichever came last. -/
theorem c6_counterexample :
    ([⟨str "VELVET", 10⟩, ⟨str "VELVET", 20⟩] : List DatabaseFabric).Perm
      [⟨str "VELVET", 20⟩, ⟨str "VELVET", 10⟩] ∧
    (match_fabric oracle0 (build_index [⟨str "VELVET", 10⟩, ⟨str "VELVET", 20⟩])
        ⟨str "VELVET", 1, 500, 500, []⟩).database_fabric = some ⟨str "VELVET", 20⟩ ∧
    (match_fabric oracle0 (build_index [⟨str "VELVET", 20⟩, ⟨str "VELVET", 10⟩])
        ⟨str "VELVET", 1, 500, 500, []⟩).database_fabric = some ⟨str "VELVET", 10⟩ ∧
    (⟨str "VELVET", 20⟩ : DatabaseFabric) ≠ ⟨str "VELVET", 10⟩ := by
  refine ⟨List.Perm.swap _ _ _, ?_, ?_, by decide⟩
  · with_unfolding_all decide
  · with_unfolding_all decide

/-- C6 (amended): matching is a deterministic function of the catalog
sequence, and the EXACT strategy is permutation-independent provided all
entries have pairwise-distinct normalized names; when two distinct entries
collide on normalized name (or tie on score in a scanning strategy) the
result depends on catalog order. -/
theorem c6_exact_perm_invariant (oracle : FuzzyOracle) (c1 c2 : List DatabaseFabric)
    (hperm : c1.Perm c2)
    (hdist : (c1.map fun e => normalize_string e.material_name).Nodup)
    (pf : ParsedFabric) :
    exact_match (build_index c1) pf.material_name
      = exact_match (build_index c2) pf.material_name ∧
    (∀ r, exact_match (build_index c1) pf.material_name = some r →
      match_fabric oracle (build_index c1) pf = match_fabric oracle (build_index c2) pf) := by
  have hlook : lookupIdx (build_index c1) (normalize_string pf.material_name)
      = lookupIdx (build_index c2) (normalize_string pf.material_name) := by
    by_cases hk : normalize_string pf.material_name = []
    · rw [hk, lookupIdx_build_index_nil, lookupIdx_build_index_nil]
    · rw [lookupIdx_build_index c1 _ hk, lookupIdx_build_index c2 _ hk]
      apply find?_perm_of_unique
      · exact (List.reverse_perm c1).trans (hperm.trans (List.reverse_perm c2).symm)
      · intro a ha b hb hpa hpb
        have ha' := List.mem_reverse.mp ha
        have hb' := List.mem_reverse.mp hb
        have hfa : normalize_string a.material_name = normalize_string pf.material_name := by
          simpa using hpa
        have hfb : normalize_string b.material_name = normalize_string pf.material_name := by
          simpa using hpb
        exact List.inj_on_of_nodup_map hdist ha' hb' (hfa.trans hfb.symm)
  have hexact : exact_match (build_index c1) pf.material_name
      = exact_match (build_index c2) pf.material_name := by
    unfold exact_match
    rw [hlook]
  refine ⟨hexact, ?_⟩
  intro r hr
  obtain ⟨db, score⟩ := r
  have hr2 : exact_match (build_index c2) pf.material_name = some (db, score) :=
    hexact ▸ hr
  unfold match_fabric
  rw [hr, hr2]

/-- Witness for C6: permuting a two-entry catalog with distinct normalized
names does not change the exact match. -/
theorem c6_exact_perm_invariant_witness :
    exact_match (build_index [⟨str "VELVET", 10⟩, ⟨str "SILK", 20⟩]) (str "VELVET")
      = exact_match (build_index [⟨str "SILK", 20⟩, ⟨str "VELVET", 10⟩]) (str "VELVET") :=
  (c6_exact_perm_invariant oracle0 [⟨str "VELVET", 10⟩, ⟨str "SILK", 20⟩]
    [⟨str "SILK", 20⟩, ⟨str "VELVET", 10⟩] (List.Perm.swap _ _ _)
    (by decide) ⟨str "VELVET", 1, 500, 500, []⟩).1

/-! ## Claim C4 -/

/-- C4, counterexample to the claim as stated: for the catalog entry named
`"a -"`, `normalize` is not idempotent (`normalize "a -" = "a "` but
`normalize "a " = "a"`), so querying the engine with `normalize(e.name)`
misses the index key and falls through to the prefix-based strategy. -/
theorem c4_counterexample :
    ((⟨str "a -", 10⟩ : DatabaseFabric) ∈ ([⟨str "a -", 10⟩] : List DatabaseFabric)) ∧
    (match_fabric oracle0 (build_index [⟨str "a -", 10⟩])
        ⟨normalize_string (str "a -"), 1, 500, 500, []⟩).match_algorithm =
      .PREFIX_BASED_MATCH ∧
    MatchAlgorithm.PREFIX_BASED_MATCH ≠ .EXACT_MATCH :=
  ⟨by decide, by with_unfolding_all decide, by decide⟩

/-- C4 (amended): for every catalog entry `e` whose name has a nonempty
normalized form on which `normalize` is idempotent, querying the engine
with `normalize(e.name)` against a catalog containing `e` returns algorithm
EXACT with score 100. -/
theorem c4_exact_self_match (oracle : FuzzyOracle) (es : List DatabaseFabric)
    (e : DatabaseFabric) (he : e ∈ es)
    (hne : normalize_string e.material_name ≠ [])
    (hidem : normalize_string (normalize_string e.material_name)
      = normalize_string e.material_name)
    (pf : ParsedFabric) (hpf : pf.material_name = normalize_string e.material_name) :
    (match_fabric oracle (build_index es) pf).match_algorithm = .EXACT_MATCH ∧
    (match_fabric oracle (build_index es) pf).match_score = 100 := by
  have h2 : (es.reverse.find? fun x =>
      normalize_string x.material_name = normalize_string e.material_name).isSome :=
    List.find?_isSome.mpr ⟨e, List.mem_reverse.mpr he, by simp⟩
  cases hv : es.reverse.find? fun x =>
      normalize_string x.material_name = normalize_string e.material_name with
  | none => rw [hv] at h2; simp at h2
  | some v =>
    have hlook : lookupIdx (build_index es) (normalize_string e.material_name) = some v :=
      (lookupIdx_build_index es _ hne).trans hv
    have hexact : exact_match (build_index es) pf.material_name = some (v, 100) := by
      unfold exact_match
      rw [hpf, hidem, hlook]
    unfold match_fabric
    rw [hexact]
    exact ⟨rfl, rfl⟩

/-- Witness for C4 on the entry `"VELVET"` (normalization is idempotent on
it). -/
theorem c4_exact_self_match_witness :
    (match_fabric oracle0 (build_index [⟨str "VELVET", 10⟩])
      ⟨normalize_string (str "VELVET"), 1, 500, 500, []⟩).match_algorithm = .EXACT_MATCH :=
  (c4_exact_self_match oracle0 [⟨str "VELVET", 10⟩] ⟨str "VELVET", 10⟩ (by decide)
    (by decide) (by decide) ⟨normalize_string (str "VELVET"), 1, 500, 500, []⟩ rfl).1

/-! ## Claim C1 -/

/-- C1: the matching cascade tries Exact, Prefix-based, Substring, Fuzzy,
Semantic in this fixed order; the first strategy returning a candidate
(each strategy already applies its own threshold internally before
returning) wins; in particular whenever an exact candidate exists the
result has algorithm EXACT — never FUZZY — regardless of the fuzzy
scores. -/
theorem c1_cascade_priority (oracle : FuzzyOracle) (idx : DbIndex) (pf : ParsedFabric) :
    (∀ db s, exact_match idx pf.material_name = some (db, s) →
      match_fabric oracle idx pf = _create_match_result pf (some db) s .EXACT_MATCH .HIGH) ∧
    (exact_match idx pf.material_name = none →
      ∀ db s, prefix_based_match idx pf.material_name = some (db, s) →
        match_fabric oracle idx pf =
          _create_match_result pf (some db) s .PREFIX_BASED_MATCH
            (if 85 ≤ s then .HIGH else .MEDIUM)) ∧
    (exact_match idx pf.material_name = none →
      prefix_based_match idx pf.material_name = none →
      ∀ db s, substring_match idx pf.material_name = some (db, s) →
        match_fabric oracle idx pf =
          _create_match_result pf (some db) s .SUBSTRING_MATCH
            (if 85 ≤ s then .HIGH else .MEDIUM)) ∧
    (exact_match idx pf.material_name = none →
      prefix_based_match idx pf.material_name = none →
      substring_match idx pf.material_name = none →
      ∀ db s, fuzzy_match oracle idx pf.material_name = some (db, s) →
        match_fabric oracle idx pf =
          _create_match_result pf (some db) s .FUZZY_MATCH
            (if 85 ≤ s then .HIGH else .MEDIUM)) ∧
    (exact_match idx pf.material_name = none →
      prefix_based_match idx pf.material_name = none →
      substring_match idx pf.material_name = none →
      fuzzy_match oracle idx pf.material_name = none →
      ∀ db s, semantic_match idx pf.material_name = some (db, s) →
        match_fabric oracle idx pf =
          _create_match_result pf (some db) s .SEMANTIC_MATCH
            (if 70 ≤ s then .MEDIUM else .LOW)) ∧
    (exact_match idx pf.material_name ≠ none →
      fuzzy_match oracle idx pf.material_name ≠ none →
      (match_fabric oracle idx pf).match_algorithm = .EXACT_MATCH) := by
  refine ⟨?_, ?_, ?_, ?_, ?_, ?_⟩
  · intro db s h
    unfold match_fabric
    rw [h]
  · intro h0 db s h
    unfold match_fabric
    rw [h0, h]
  · intro h0 h1 db s h
    unfold match_fabric
    rw [h0, h1, h]
  · intro h0 h1 h2 db s h
    unfold match_fabric
    rw [h0, h1, h2, h]
  · intro h0 h1 h2 h3 db s h
    unfold match_fabric
    rw [h0, h1, h2, h3, h]
  · intro hex _
    cases hr : exact_match idx pf.material_name with
    | none => exact absurd hr hex
    | some r =>
      obtain ⟨db, s⟩ := r
      unfold match_fabric
      rw [hr]
      rfl

/-- An oracle making every fuzzy pair score 100 (so a fuzzy candidate
always exists on a nonempty index). -/
def oracle100 : FuzzyOracle := fun _ _ => 100

/-- Witness for C1: an exact and a fuzzy candidate both exist, and the
engine returns the exact result. -/
theorem c1_cascade_priority_witness :
    match_fabric oracle100 (build_index [⟨str "VELVET", 10⟩]) ⟨str "VELVET", 1, 500, 500, []⟩
      = _create_match_result ⟨str "VELVET", 1, 500, 500, []⟩ (some ⟨str "VELVET", 10⟩) 100
          .EXACT_MATCH .HIGH ∧
    fuzzy_match oracle100 (build_index [⟨str "VELVET", 10⟩]) (str "VELVET") ≠ none :=
  ⟨(c1_cascade_priority oracle100 (build_index [⟨str "VELVET", 10⟩])
      ⟨str "VELVET", 1, 500, 500, []⟩).1 ⟨str "VELVET", 10⟩ 100 (by with_unfolding_all decide),
   by with_unfolding_all decide⟩

/-! ## Claim C7 -/

/-- C7: the substring/token-overlap strategy accepts a candidate exactly
when the normalized parsed name is contained in the catalog name or vice
versa — scoring `min(95, 80 + coverage_ratio*20)` — or when the token
overlap after removing the fixed stop-token set from the catalog tokens is
nonzero — scoring `(overlap/union)*90`; the best candidate over the whole
catalog is returned only if its score is at least 60, and the resulting
confidence is HIGH if the score is at least 85, MEDIUM otherwise. -/
theorem c7_substring_spec (idx : DbIndex) (name : List Char) :
    (substring_match idx name = none ↔
      bestSubstrScore (normalize_string name) ((tokenize_string name).dedup) idx < 60) ∧
    (∀ f s, substring_match idx name = some (f, s) →
      s = bestSubstrScore (normalize_string name) ((tokenize_string name).dedup) idx ∧
      60 ≤ s) ∧
    (∀ (oracle : FuzzyOracle) (pf : ParsedFabric), pf.material_name = name →
      exact_match idx name = none → prefix_based_match idx name = none →
      ∀ f s, substring_match idx name = some (f, s) →
        match_fabric oracle idx pf =
          _create_match_result pf (some f) s .SUBSTRING_MATCH
            (if 85 ≤ s then .HIGH else .MEDIUM)) := by
  rcases hB : idx.foldl
      (substrStep (normalize_string name) ((tokenize_string name).dedup)) (none, 0)
    with ⟨m, s0⟩
  have hbest : bestSubstrScore (normalize_string name) ((tokenize_string name).dedup) idx
      = s0 := by
    have h := substr_foldl_snd (normalize_string name) ((tokenize_string name).dedup)
      idx none 0 le_rfl
    rw [hB] at h
    exact (by simpa [bestSubstrScore] using h.symm)
  have hinv := substr_foldl_inv (normalize_string name) ((tokenize_string name).dedup)
    idx none 0 (fun _ => rfl) le_rfl
  rw [hB] at hinv
  have hinv1 : m = none → s0 = 0 := hinv.1
  have hsm : substring_match idx name =
      if 60 ≤ s0 then m.map (fun f => (f, s0)) else none := by
    unfold substring_match
    dsimp only
    rw [hB]
  refine ⟨?_, ?_, ?_⟩
  · rw [hsm, hbest]
    by_cases h60 : 60 ≤ s0
    · rw [if_pos h60]
      constructor
      · intro hmap
        cases m with
        | none =>
          have hz : s0 = 0 := hinv1 rfl
          rw [hz] at h60
          norm_num at h60
        | some f => simp at hmap
      · intro hlt
        linarith
    · rw [if_neg h60]
      exact ⟨fun _ => not_le.mp h60, fun _ => rfl⟩
  · intro f s hsome
    rw [hsm] at hsome
    by_cases h60 : 60 ≤ s0
    · rw [if_pos h60] at hsome
      cases m with
      | none => simp at hsome
      | some f0 =>
        have hsome' : (f0, s0) = ((f, s) : DatabaseFabric × ℚ) := by
          simpa using hsome
        have hs : s0 = s := congrArg Prod.snd hsome'
        rw [hbest]
        exact ⟨hs.symm, hs ▸ h60⟩
    · rw [if_neg h60] at hsome
      exact absurd hsome (by simp)
  · intro oracle pf hpf hex hpre f s hsub
    unfold match_fabric
    rw [hpf, hex, hpre, hsub]

/-- Witness for C7: catalog entry "ROYAL COTTON", parsed name "royal" —
containment accepts with score 80 + (5/12)*20 = 265/3 ≈ 88.3, which exceeds
the 60 threshold and the 85 HIGH cut. -/
theorem c7_substring_spec_witness :
    match_fabric oracle0 (build_index [⟨str "ROYAL COTTON", 10⟩])
        ⟨str "royal", 1, 500, 500, []⟩ =
      _create_match_result ⟨str "royal", 1, 500, 500, []⟩
        (some ⟨str "ROYAL COTTON", 10⟩) (265 / 3) .SUBSTRING_MATCH
        (if (85 : ℚ) ≤ 265 / 3 then .HIGH else .MEDIUM) :=
  (c7_substring_spec (build_index [⟨str "ROYAL COTTON", 10⟩]) (str "royal")).2.2 oracle0
    ⟨str "royal", 1, 500, 500, []⟩ rfl (by with_unfolding_all decide)
    (by with_unfolding_all decide) ⟨str "ROYAL COTTON", 10⟩ (265 / 3)
    (by with_unfolding_all decide)

/-! ## A small backtracking regex engine (for the invoice parser of
`test_basic_ocr.py`)

Quantifiers are applied only to single-character classes — which covers
every pattern in the source — so the matcher is structurally recursive.
State lists are produced in backtracking priority order (greedy
quantifiers longest-first, alternatives left-to-right), matching Python
`re` leftmost-greedy semantics. -/

/-- The regex class `[A-Za-z]` (with or without IGNORECASE). -/
def isAlphaAZ (c : Char) : Bool := isLowerAZ (lowerCh c)

inductive RE where
  | eps
  | cls (p : Char → Bool)
  | seq (r1 r2 : RE)
  | alt (r1 r2 : RE)
  | starCls (p : Char → Bool)
  | plusCls (p : Char → Bool)
  | opt (r : RE)
  | group (n : Nat) (r : RE)
  | wb
  | bos
  | eol

/-- Matcher state: the character before the current position (`none` at
the string start), the remaining input, and the captures so far. -/
structure MSt where
  prev : Option Char
  rest : List Char
  caps : List (Nat × List Char)
deriving DecidableEq

/-- Advance a state by `k` characters. -/
def consumeN (st : MSt) (k : Nat) : MSt :=
  { prev := ((st.rest.take k).getLast?).elim st.prev some
    rest := st.rest.drop k
    caps := st.caps }

/-- Greedy `p*`: all splits of the maximal `p`-run, longest first. -/
def starStates (p : Char → Bool) (st : MSt) : List MSt :=
  let n := (st.rest.takeWhile p).length
  (List.range (n + 1)).map (fun i => consumeN st (n - i))

/-- Greedy `p+`: like `p*` but at least one character. -/
def plusStates (p : Char → Bool) (st : MSt) : List MSt :=
  let n := (st.rest.takeWhile p).length
  (List.range n).map (fun i => consumeN st (n - i))

/-- All ways a regex can match a prefix of the state's input, in
backtracking priority order. -/
def mrun : RE → MSt → List MSt
  | .eps, st => [st]
  | .cls p, st =>
    match st.rest with
    | [] => []
    | c :: cs => if p c then [⟨some c, cs, st.caps⟩] else []
  | .seq a b, st => (mrun a st).flatMap (mrun b)
  | .alt a b, st => mrun a st ++ mrun b st
  | .starCls p, st => starStates p st
  | .plusCls p, st => plusStates p st
  | .opt r, st => mrun r st ++ [st]
  | .group n r, st =>
    (mrun r st).map (fun st' =>
      { st' with caps := st'.caps ++ [(n, st.rest.take (st.rest.length - st'.rest.length))] })
  | .wb, st => if isWordOpt st.prev != isWordOpt st.rest.head? then [st] else []
  | .bos, st => if st.prev = none then [st] else []
  | .eol, st => if st.rest = [] ∨ st.rest = ['\n'] then [st] else []

/-- `re.search` scanning from index `i`: the leftmost match position and
its first (highest-priority) end state. -/
def searchFrom (re : RE) : Option Char → Nat → List Char → Option (Nat × MSt)
  | prev, i, [] =>
    match mrun re ⟨prev, [], []⟩ with
    | st :: _ => some (i, st)
    | [] => none
  | prev, i, c :: cs =>
    match mrun re ⟨prev, c :: cs, []⟩ with
    | st :: _ => some (i, st)
    | [] => searchFrom re (some c) (i + 1) cs

/-- `match.group(n)` (the last capture of group `n`). -/
def capGroup (st : MSt) (n : Nat) : Option (List Char) :=
  (st.caps.reverse.find? (fun c => c.1 = n)).map Prod.snd

/-- `re.sub(pattern, repl, s)` worker; `fuel ≥ s.length + 1` always
suffices, since every iteration consumes at least one character of `s`. -/
def subAllFuel (re : RE) (repl : List Char) : Nat → Option Char → List Char → List Char
  | 0, _, s => s
  | Nat.succ fuel, prev, s =>
    match searchFrom re prev 0 s with
    | none => s
    | some (i, st) =>
      let pre := s.take i
      let tail := s.drop i
      let mlen := tail.length - st.rest.length
      if mlen = 0 then
        match st.rest with
        | [] => pre ++ repl
        | c :: cs => pre ++ repl ++ c :: subAllFuel re repl fuel (some c) cs
      else
        pre ++ repl ++
          subAllFuel re repl fuel (((tail.take mlen).getLast?).elim prev some) st.rest

/-- `re.sub(pattern, repl, s)`. -/
def pySub (re : RE) (repl : List Char) (s : List Char) : List Char :=
  subAllFuel re repl (s.length + 1) none s

/-- `re.fullmatch(pattern, s)` viewed as a Bool. -/
def pyFullmatch (re : RE) (s : List Char) : Bool :=
  (mrun re ⟨none, s, []⟩).any (fun st => st.rest = [])

/-- A case-insensitive literal. -/
def litCI (w : String) : RE :=
  w.data.foldr (fun c acc => .seq (.cls (fun d => lowerCh d = lowerCh c)) acc) .eps

/-- Left-to-right alternation of a list of regexes. -/
def altL : List RE → RE
  | [] => .cls (fun _ => false)
  | [r] => r
  | r :: rs => .alt r (altL rs)

/-- `p{n}`: exactly `n` characters of a class. -/
def repCls (p : Char → Bool) : Nat → RE
  | 0 => .eps
  | n + 1 => .seq (.cls p) (repCls p n)

/-- `p{n,}`: at least `n` characters of a class (greedy). -/
def repClsAtLeast (p : Char → Bool) (n : Nat) : RE :=
  .seq (repCls p n) (.starCls p)

/-- `\s*`. -/
def wsStar : RE := .starCls isSpaceCh

/-- `\d+(?:\.\d+)?` — the quantity/rate group of the parser patterns. -/
def numRE : RE :=
  .seq (.plusCls isDigitCh) (.opt (.seq (.cls (· = '.')) (.plusCls isDigitCh)))

/-- `[\d,]+(?:\.\d+)?` — the amount group of the parser patterns. -/
def amtRE : RE :=
  .seq (.plusCls (fun c => isDigitCh c || c = ','))
    (.opt (.seq (.cls (· = '.')) (.plusCls isDigitCh)))

/-! ## Numeric parsing (Python `float` on the strings the groups match) -/

def digitsToNat (ds : List Char) : Nat :=
  ds.foldl (fun n c => n * 10 + (c.toNat - 48)) 0

/-- Python `float` on a string of the form `digits[.digits]` (the only
shapes the parser feeds it). -/
def pyFloat (s : List Char) : ℚ :=
  let intPart := s.takeWhile (fun c => c ≠ '.')
  let frac := (s.dropWhile (fun c => c ≠ '.')).drop 1
  (digitsToNat intPart : ℚ) + (digitsToNat frac : ℚ) / ((10 : ℚ) ^ frac.length)

/-- Python `float` where the empty string raises ValueError. -/
def pyFloatOpt (s : List Char) : Option ℚ :=
  if s = [] then none else some (pyFloat s)

theorem pyFloat_nonneg (s : List Char) : 0 ≤ pyFloat s := by
  unfold pyFloat
  have h1 : (0:ℚ) ≤ (digitsToNat (s.takeWhile (fun c => c ≠ '.')) : ℚ) := Nat.cast_nonneg _
  have h2 : (0:ℚ) ≤ (digitsToNat ((s.dropWhile (fun c => c ≠ '.')).drop 1) : ℚ) /
      ((10 : ℚ) ^ ((s.dropWhile (fun c => c ≠ '.')).drop 1).length) :=
    div_nonneg (Nat.cast_nonneg _) (by positivity)
  dsimp only
  linarith

/-! ## Sarom-format parser (`UniversalInvoiceParser._parse_sarom_format`) -/

/-- The common skeleton of the 17 Sarom item patterns:
`(\d+(?:\.\d+)?) <sep1> (\d+(?:\.\d+)?) <sep2> ([\d,]+(?:\.\d+)?)`. -/
def mkSaromPat (sep1 sep2 : RE) : RE :=
  .seq (.group 1 numRE) (.seq sep1 (.seq (.group 2 numRE) (.seq sep2 (.group 3 amtRE))))

/-- `\s*(?:My|Mtr|Meter|Mtr,|Mtr~|Mtr")\s*`. -/
def saromSep1A : RE :=
  .seq wsStar (.seq (altL [litCI "My", litCI "Mtr", litCI "Meter", litCI "Mtr,",
    litCI "Mtr~", litCI "Mtr\""]) wsStar)

/-- `\s*(?:Mu|Mtr|Meter)\s*`. -/
def saromSep2A : RE :=
  .seq wsStar (.seq (altL [litCI "Mu", litCI "Mtr", litCI "Meter"]) wsStar)

/-- `\s*(?:Mtr|Meter)\s*`. -/
def saromSepMtrMeter : RE :=
  .seq wsStar (.seq (altL [litCI "Mtr", litCI "Meter"]) wsStar)

/-- `(?:Mtr|Meter)(?:,|~|-)\s*` (no leading whitespace). -/
def saromSep3 : RE :=
  .seq (altL [litCI "Mtr", litCI "Meter"])
    (.seq (.cls (fun c => c = ',' || c = '~' || c = '-')) wsStar)

/-- `\s*Mtr~\s*,?\s*`. -/
def saromSep4 : RE :=
  .seq wsStar (.seq (litCI "Mtr~") (.seq wsStar (.seq (.opt (.cls (· = ','))) wsStar)))

/-- `\s*Mtr,\s*`. -/
def saromSep5 : RE := .seq wsStar (.seq (litCI "Mtr,") wsStar)

/-- `\s*Mtr"\s*`. -/
def saromSep6 : RE := .seq wsStar (.seq (litCI "Mtr\"") wsStar)

/-- `\s*Mtr\s*`. -/
def saromSepMtr : RE := .seq wsStar (.seq (litCI "Mtr") wsStar)

/-- `\s*Mtr-\s*`. -/
def saromSep10 : RE := .seq wsStar (.seq (litCI "Mtr-") wsStar)

/-- `\s*Mu\s*`. -/
def saromSepMu : RE := .seq wsStar (.seq (litCI "Mu") wsStar)

/-- `\s*Mtr[^\d]*\s*`. -/
def saromSep16 : RE :=
  .seq wsStar (.seq (litCI "Mtr") (.seq (.starCls (fun c => !isDigitCh c)) wsStar))

/-- The 17 patterns of `_parse_sarom_format`, in source order (several are
textual repeats in the source and repeat here). -/
def saromPatterns : List RE :=
  [ mkSaromPat saromSep1A saromSep2A
  , mkSaromPat saromSepMtrMeter saromSepMtrMeter
  , mkSaromPat saromSep3 saromSepMtrMeter
  , mkSaromPat saromSep4 saromSepMtr
  , mkSaromPat saromSep5 saromSepMtr
  , mkSaromPat saromSep6 saromSepMtr
  , mkSaromPat saromSepMtr saromSepMtr
  , mkSaromPat saromSepMtrMeter saromSepMtrMeter
  , mkSaromPat saromSep6 saromSepMtr
  , mkSaromPat saromSep10 saromSepMu
  , mkSaromPat saromSepMtr saromSepMtr
  , mkSaromPat saromSepMtr saromSepMtr
  , mkSaromPat saromSep6 saromSepMtr
  , mkSaromPat saromSepMtr saromSepMtr
  , mkSaromPat saromSep6 saromSepMtr
  , mkSaromPat saromSep16 saromSepMtr
  , mkSaromPat saromSep16 saromSepMtr ]

/-- `InvoiceLine` from `test_basic_ocr.py`. -/
structure InvoiceLine where
  material_name : List Char
  quantity : Option ℚ
  amount : Option ℚ
  rate : Option ℚ
deriving DecidableEq

/-- `str.split('\n')` (keeps empty parts). -/
def splitOnNl : List Char → List (List Char)
  | [] => [[]]
  | c :: cs =>
    if c = '\n' then [] :: splitOnNl cs
    else
      match splitOnNl cs with
      | l :: ls => (c :: l) :: ls
      | [] => [[c]]

/-- The noise patterns of `_clean_sarom_fabric_name` (applied with
IGNORECASE, each match replaced by a space), in source order. -/
def saromNoiseREs : List RE :=
  [ .seq .wb (.seq (.cls (· = '5')) (.seq (.cls (· = '%')) .wb))
  , .seq .wb (.seq (repCls isDigitCh 8) .wb)
  , .seq .wb (.seq (repCls isDigitCh 6) (.seq (.opt (.cls isDigitCh)) .wb))
  , .seq .wb (.seq (.cls isDigitCh) (.seq (.opt (.cls isDigitCh)) .wb))
  , .seq (repCls isAlphaAZ 2) (.seq (repCls isDigitCh 2) (.seq (repCls isAlphaAZ 5)
      (.seq (.cls isDigitCh) (.seq (.cls isAlphaAZ) (.seq (.cls isDigitCh)
        (.seq (.cls isAlphaAZ) (.cls isDigitCh)))))))
  , .seq .wb (.seq (repClsAtLeast isAlphaAZ 8) (.seq (repClsAtLeast isDigitCh 2) .wb))
  , .seq .wb (.seq (repClsAtLeast isDigitCh 2) (.seq (repClsAtLeast isAlphaAZ 3)
      (.seq (repClsAtLeast isDigitCh 2) .wb)))
  , .seq .wb (.seq (repClsAtLeast isAlphaAZ 4) (.seq (repClsAtLeast isDigitCh 2)
      (.seq (repClsAtLeast isAlphaAZ 2) (.seq (repClsAtLeast isDigitCh 2) .wb))))
  , .seq .wb (.seq (repClsAtLeast isAlphaAZ 6) (.seq (repClsAtLeast isDigitCh 2) .wb))
  , .cls (fun c => !(isWordCh c || isSpaceCh c || c = '-'))
  , .plusCls isSpaceCh
  , .alt (.seq .bos (.plusCls isSpaceCh)) (.seq (.plusCls isSpaceCh) .eol) ]

/-- `UniversalInvoiceParser._clean_sarom_fabric_name`: the twelve noise
substitutions (with a space), whitespace collapse + strip, edge-hyphen
removal + strip, then the final gate (length ≥ 3 and not all
digits/whitespace, else the empty string). -/
def clean_sarom_fabric_name (name : List Char) : List Char :=
  let n1 := saromNoiseREs.foldl (fun s re => pySub re [' '] s) name
  let n2 := stripWs (pySub (.plusCls isSpaceCh) [' '] n1)
  let n3 := stripWs (sub_edge_hyphens n2)
  if 3 ≤ n3.length ∧ ¬ (n3 ≠ [] ∧ n3.all (fun c => isDigitCh c || isSpaceCh c)) then n3
  else []

/-- One pattern attempt of the `_parse_sarom_format` loop: on a regex
match, extract qty/rate/amount from the three groups, take the text before
the match as the name, clean it, and emit only when the cleaned name has
at least 3 characters; `none` means "try the next pattern". -/
def saromTryPat (line : List Char) (re1 : RE) : Option InvoiceLine :=
  match searchFrom re1 none 0 line with
  | some (i, st) =>
    let qty := pyFloat ((capGroup st 1).getD [])
    let rate := pyFloat ((capGroup st 2).getD [])
    let amount := pyFloat (((capGroup st 3).getD []).filter (· ≠ ','))
    let name_part := stripWs (line.take i)
    if name_part ≠ [] then
      let clean := clean_sarom_fabric_name name_part
      if clean ≠ [] ∧ 3 ≤ clean.length then
        some ⟨clean, some qty, some amount, some rate⟩
      else none
    else none
  | none => none

/-- The per-line pattern loop of `_parse_sarom_format`: first pattern whose
attempt emits an item wins. -/
def saromExtract (line : List Char) : List RE → Option InvoiceLine
  | [] => none
  | re1 :: rest =>
    match saromTryPat line re1 with
    | some item => some item
    | none => saromExtract line rest

/-- The per-line body of the `_parse_sarom_format` loop: strip the line,
skip it when empty or shorter than 10 characters, otherwise run the
pattern cascade. -/
def saromLine (rawLine : List Char) : Option InvoiceLine :=
  let line := stripWs rawLine
  if line ≠ [] ∧ 10 ≤ line.length then saromExtract line saromPatterns else none

/-- `UniversalInvoiceParser._parse_sarom_format`. -/
def _parse_sarom_format (text : List Char) : List InvoiceLine :=
  (splitOnNl text).filterMap saromLine



/-! ## Helper lemmas for the Sarom line theorem (claim C9) -/

theorem plusStates_nil (p : Char → Bool) (st : MSt)
    (h : st.rest.takeWhile p = []) : plusStates p st = [] := by
  simp [plusStates, h]

/-- Every Sarom item pattern starts with `\d+`, so it cannot match at a
position whose first character is not a digit. -/
theorem mrun_mkSaromPat_nonDigit (sep1 sep2 : RE) (st : MSt)
    (h : st.rest.takeWhile isDigitCh = []) :
    mrun (mkSaromPat sep1 sep2) st = [] := by
  unfold mkSaromPat numRE
  simp [mrun, plusStates_nil _ _ h]

theorem searchFrom_eq (re : RE) (prev : Option Char) (i : Nat) (s : List Char) :
    searchFrom re prev i s =
      match mrun re ⟨prev, s, []⟩ with
      | st :: _ => some (i, st)
      | [] =>
        match s with
        | [] => none
        | c :: cs => searchFrom re (some c) (i + 1) cs := by
  cases s <;> rfl

theorem searchFrom_shift (re : RE) :
    ∀ (s : List Char) (prev : Option Char) (i : Nat),
      searchFrom re prev i s = (searchFrom re prev 0 s).map (fun r => (i + r.1, r.2)) := by
  intro s
  induction s with
  | nil =>
    intro prev i
    rw [searchFrom_eq re prev i [], searchFrom_eq re prev 0 []]
    cases mrun re ⟨prev, [], []⟩ <;> simp
  | cons c cs ih =>
    intro prev i
    rw [searchFrom_eq re prev i (c :: cs), searchFrom_eq re prev 0 (c :: cs)]
    cases mrun re ⟨prev, c :: cs, []⟩ with
    | cons st rest => simp
    | nil =>
      simp only
      rw [ih (some c) (i + 1), ih (some c) (0 + 1)]
      cases searchFrom re (some c) 0 cs with
      | none => simp
      | some r => simp; omega

/-- The last character of a list, falling back to a default. -/
def lastOpt (su : List Char) (prev : Option Char) : Option Char :=
  match su.getLast? with
  | some c => some c
  | none => prev

/-- Scanning a Sarom pattern over a digit-free prefix just skips it. -/
theorem searchFrom_skip_nonDigit (sep1 sep2 : RE) (tail : List Char) :
    ∀ (su : List Char) (prev : Option Char) (i : Nat),
      (∀ c ∈ su, isDigitCh c = false) →
      searchFrom (mkSaromPat sep1 sep2) prev i (su ++ tail) =
        searchFrom (mkSaromPat sep1 sep2) (lastOpt su prev) (i + su.length) tail := by
  intro su
  induction su with
  | nil => intro prev i _; simp [lastOpt]
  | cons c su ih =>
    intro prev i hnd
    have hc : isDigitCh c = false := hnd c (by simp)
    have hmr : mrun (mkSaromPat sep1 sep2) ⟨prev, c :: (su ++ tail), []⟩ = [] := by
      apply mrun_mkSaromPat_nonDigit
      simp [List.takeWhile, hc]
    rw [List.cons_append,
      searchFrom_eq (mkSaromPat sep1 sep2) prev i (c :: (su ++ tail)), hmr]
    simp only
    rw [ih (some c) (i + 1) (fun d hd => hnd d (by simp [hd]))]
    have hlast : lastOpt su (some c) = lastOpt (c :: su) prev := by
      cases su with
      | nil => simp [lastOpt]
      | cons d ds =>
        unfold lastOpt
        rw [List.getLast?_cons_cons]
        cases h : (d :: ds).getLast? with
        | some e => rfl
        | none =>
          rw [List.getLast?_eq_none_iff] at h
          exact absurd h (by simp)
    rw [hlast]
    have harith : i + 1 + su.length = i + (c :: su).length := by
      simp [List.length_cons]
      omega
    rw [harith]

/-- The fixed numeric tail of the C9 scenario line. -/
def saromTail : List Char := str "4.15 Mtr 720.00 Mtr 2,988.00"

/-- The match state the first Sarom pattern produces on `saromTail`. -/
def saromSt : MSt :=
  ⟨some '0', [], [(1, str "4.15"), (2, str "720.00"), (3, str "2,988.00")]⟩

theorem saromSearch_concrete :
    searchFrom (mkSaromPat saromSep1A saromSep2A) (some ' ') 0 saromTail =
      some (0, saromSt) := by
  with_unfolding_all decide

theorem clean_sarom_nil : clean_sarom_fabric_name [] = [] := by
  with_unfolding_all decide

theorem clean_sarom_length (x : List Char) (h : clean_sarom_fabric_name x ≠ []) :
    3 ≤ (clean_sarom_fabric_name x).length := by
  unfold clean_sarom_fabric_name at h ⊢
  dsimp only at h ⊢
  split_ifs at h ⊢ with hcond
  · exact hcond.1
  · exact absurd rfl h

theorem dropWhile_head_false {α : Type} {p : α → Bool} :
    ∀ (l : List α) (c : α) (cs : List α), l.dropWhile p = c :: cs → p c = false
  | [], c, cs, h => by simp [List.dropWhile] at h
  | a :: l, c, cs, h => by
    by_cases ha : p a
    · rw [List.dropWhile_cons_of_pos ha] at h
      exact dropWhile_head_false l c cs h
    · rw [List.dropWhile_cons_of_neg ha] at h
      injection h with h1 h2
      subst h1
      simpa using ha

theorem rdropWhile_eq_self_of_getLast {p : Char → Bool} (l : List Char) (a : Char)
    (h : l.getLast? = some a) (hp : p a = false) : l.rdropWhile p = l := by
  apply List.rdropWhile_eq_self_iff.mpr
  intro hl
  rw [List.getLast?_eq_getLast l hl] at h
  injection h with h1
  rw [h1, hp]
  simp

theorem splitOnNl_no_nl : ∀ s : List Char, (∀ c ∈ s, c ≠ '\n') → splitOnNl s = [s]
  | [], _ => rfl
  | c :: cs, h => by
    have hc : ¬ c = '\n' := h c (by simp)
    have ih := splitOnNl_no_nl cs (fun d hd => h d (by simp [hd]))
    simp only [splitOnNl]
    rw [if_neg hc, ih]

theorem pyFloat_concrete (s intp fracp : List Char) (n m k : Nat)
    (hi : s.takeWhile (fun c => c ≠ '.') = intp)
    (hf : (s.dropWhile (fun c => c ≠ '.')).drop 1 = fracp)
    (hn : digitsToNat intp = n) (hm : digitsToNat fracp = m)
    (hk : fracp.length = k) :
    pyFloat s = n + (m : ℚ) / 10 ^ k := by
  unfold pyFloat
  dsimp only
  rw [hi, hf, hn, hm, hk]

theorem saromCap1 : pyFloat ((capGroup saromSt 1).getD []) = (415 : ℚ)/100 := by
  have h := pyFloat_concrete ((capGroup saromSt 1).getD []) (str "4") (str "15") 4 15 2
    (by decide) (by decide) (by decide) (by decide) (by decide)
  rw [h]
  norm_num

theorem saromCap2 : pyFloat ((capGroup saromSt 2).getD []) = 720 := by
  have h := pyFloat_concrete ((capGroup saromSt 2).getD []) (str "720") (str "00") 720 0 2
    (by decide) (by decide) (by decide) (by decide) (by decide)
  rw [h]
  norm_num

theorem saromCap3 :
    pyFloat (((capGroup saromSt 3).getD []).filter (· ≠ ',')) = 2988 := by
  have h := pyFloat_concrete (((capGroup saromSt 3).getD []).filter (· ≠ ','))
    (str "2988") (str "00") 2988 0 2
    (by decide) (by decide) (by decide) (by decide) (by decide)
  rw [h]
  norm_num

theorem saromExtract_cons (line : List Char) (re1 : RE) (rest : List RE) :
    saromExtract line (re1 :: rest) =
      match saromTryPat line re1 with
      | some item => some item
      | none => saromExtract line rest := rfl

set_option maxHeartbeats 4000000 in
/-- **Claim C9.** Parsing the Sarom-layout text `"<name> 4.15 Mtr 720.00 Mtr 2,988.00"`,
for any digit-free, newline-free material name that survives
`_clean_sarom_fabric_name` with a nonempty (hence length ≥ 3) result, yields
exactly one invoice line: its name is the cleaned stripped name, quantity is
4.15, rate 720.00, amount 2988.00 (the thousands comma removed), and the
amount equals quantity times rate within the 0.01 tolerance. -/
theorem c9_sarom_tabular_line (name : List Char)
    (hnd : ∀ c ∈ name, isDigitCh c = false)
    (hnn : ∀ c ∈ name, c ≠ '\n')
    (hclean : clean_sarom_fabric_name (stripWs name) ≠ []) :
    _parse_sarom_format (name ++ str " 4.15 Mtr 720.00 Mtr 2,988.00") =
      [⟨clean_sarom_fabric_name (stripWs name),
        some ((415 : ℚ)/100), some 2988, some 720⟩] ∧
    |(2988 : ℚ) - (415/100) * 720| ≤ 1/100 := by
  have heq : name ++ str " 4.15 Mtr 720.00 Mtr 2,988.00" = name ++ ' ' :: saromTail := rfl
  have hsw : stripWs name ≠ [] := fun h => hclean (by rw [h, clean_sarom_nil])
  have hdwne : name.dropWhile isSpaceCh ≠ [] := by
    intro h
    apply hsw
    unfold stripWs
    rw [h]
    rfl
  obtain ⟨c0, dn', hdn⟩ := List.exists_cons_of_ne_nil hdwne
  have hc0 : isSpaceCh c0 = false := dropWhile_head_false name c0 dn' hdn
  have hdwa : (name ++ ' ' :: saromTail).dropWhile isSpaceCh =
      name.dropWhile isSpaceCh ++ ' ' :: saromTail := by
    rw [List.dropWhile_append, hdn]
    simp
  have hlast0 : (name.dropWhile isSpaceCh ++ ' ' :: saromTail).getLast? = some '0' := by
    rw [List.getLast?_append_of_ne_nil (name.dropWhile isSpaceCh)
      (by simp : (' ' :: saromTail) ≠ [])]
    decide
  have hline : stripWs (name ++ ' ' :: saromTail) =
      name.dropWhile isSpaceCh ++ ' ' :: saromTail := by
    unfold stripWs
    rw [hdwa]
    exact rdropWhile_eq_self_of_getLast _ '0' hlast0 (by decide)
  have hlen : (name.dropWhile isSpaceCh ++ ' ' :: saromTail) ≠ [] ∧
      10 ≤ (name.dropWhile isSpaceCh ++ ' ' :: saromTail).length := by
    constructor
    · simp
    · rw [List.length_append]
      have h29 : (' ' :: saromTail).length = 29 := by decide
      omega
  have hnd2 : ∀ c ∈ name.dropWhile isSpaceCh ++ [' '], isDigitCh c = false := by
    intro c hc
    rcases List.mem_append.mp hc with h | h
    · exact hnd c ((List.dropWhile_sublist isSpaceCh).subset h)
    · simp at h
      rw [h]
      decide
  have hassoc : name.dropWhile isSpaceCh ++ ' ' :: saromTail =
      (name.dropWhile isSpaceCh ++ [' ']) ++ saromTail := by simp
  have hlastOpt : lastOpt (name.dropWhile isSpaceCh ++ [' ']) none = some ' ' := by
    unfold lastOpt
    rw [List.getLast?_concat]
  have hsearch : searchFrom (mkSaromPat saromSep1A saromSep2A) none 0
      (name.dropWhile isSpaceCh ++ ' ' :: saromTail) =
      some ((name.dropWhile isSpaceCh ++ [' ']).length, saromSt) := by
    rw [hassoc,
      searchFrom_skip_nonDigit saromSep1A saromSep2A saromTail
        (name.dropWhile isSpaceCh ++ [' ']) none 0 hnd2,
      hlastOpt,
      searchFrom_shift (mkSaromPat saromSep1A saromSep2A) saromTail (some ' ')
        (0 + (name.dropWhile isSpaceCh ++ [' ']).length),
      saromSearch_concrete]
    simp
  have htake : (name.dropWhile isSpaceCh ++ ' ' :: saromTail).take
      (name.dropWhile isSpaceCh ++ [' ']).length = name.dropWhile isSpaceCh ++ [' '] := by
    rw [hassoc]
    exact List.take_left _ _
  have hstripSu : stripWs (name.dropWhile isSpaceCh ++ [' ']) = stripWs name := by
    unfold stripWs
    have h1 : (name.dropWhile isSpaceCh ++ [' ']).dropWhile isSpaceCh =
        name.dropWhile isSpaceCh ++ [' '] := by
      rw [hdn, List.cons_append, List.dropWhile_cons_of_neg (by simp [hc0])]
    rw [h1, List.rdropWhile_concat_pos isSpaceCh (name.dropWhile isSpaceCh) ' ' (by decide)]
  have hTry : saromTryPat (name.dropWhile isSpaceCh ++ ' ' :: saromTail)
      (mkSaromPat saromSep1A saromSep2A) =
      some ⟨clean_sarom_fabric_name (stripWs name),
        some ((415 : ℚ)/100), some 2988, some 720⟩ := by
    unfold saromTryPat
    rw [hsearch]
    dsimp only
    rw [htake, hstripSu, saromCap1, saromCap2, saromCap3]
    rw [if_pos hsw, if_pos ⟨hclean, clean_sarom_length _ hclean⟩]
  have hExtract : saromExtract (name.dropWhile isSpaceCh ++ ' ' :: saromTail) saromPatterns =
      some ⟨clean_sarom_fabric_name (stripWs name),
        some ((415 : ℚ)/100), some 2988, some 720⟩ := by
    have hp : saromPatterns = mkSaromPat saromSep1A saromSep2A :: saromPatterns.tail := rfl
    rw [hp, saromExtract_cons, hTry]
  have hF : saromLine (name ++ ' ' :: saromTail) =
      some ⟨clean_sarom_fabric_name (stripWs name),
        some ((415 : ℚ)/100), some 2988, some 720⟩ := by
    unfold saromLine
    dsimp only
    rw [hline, if_pos hlen]
    exact hExtract
  have hnonl : ∀ c ∈ name ++ ' ' :: saromTail, c ≠ '\n' := by
    intro c hc
    rcases List.mem_append.mp hc with h | h
    · exact hnn c h
    · have hall : ∀ d ∈ ' ' :: saromTail, d ≠ '\n' := by decide
      exact hall c h
  constructor
  · rw [heq]
    unfold _parse_sarom_format
    rw [splitOnNl_no_nl _ hnonl, List.filterMap_cons_some hF]
    rfl
  · norm_num

/-- **Witness for claim C9** at the concrete material name `"CASSIA"`. -/
theorem c9_sarom_tabular_line_witness :
    _parse_sarom_format (str "CASSIA 4.15 Mtr 720.00 Mtr 2,988.00") =
      [⟨str "CASSIA", some ((415 : ℚ)/100), some 2988, some 720⟩] ∧
    |(2988 : ℚ) - (415/100) * 720| ≤ 1/100 := by
  have h := c9_sarom_tabular_line (str "CASSIA") (by decide) (by decide)
    (by with_unfolding_all decide)
  have he : str "CASSIA" ++ str " 4.15 Mtr 720.00 Mtr 2,988.00" =
      str "CASSIA 4.15 Mtr 720.00 Mtr 2,988.00" := rfl
  have hc : clean_sarom_fabric_name (stripWs (str "CASSIA")) = str "CASSIA" := by
    with_unfolding_all decide
  rw [he, hc] at h
  exact h

/-! ## Generic fallback parser (`UniversalInvoiceParser._parse_generic_format`) -/

/-- `(\d+(?:\.\d+)?)\s*(?:per|/)\s*(?:mtr|meter|pcs)` (IGNORECASE), the
rate pattern of `_find_rate_amount_in_context`. -/
def rateCtxRE : RE :=
  .seq (.group 1 numRE)
    (.seq wsStar (.seq (altL [litCI "per", litCI "/"])
      (.seq wsStar (altL [litCI "mtr", litCI "meter", litCI "pcs"]))))

/-- `₹?\s*([\d,]+(?:\.\d+)?)`, the amount pattern of
`_find_rate_amount_in_context`. -/
def amtCtxRE : RE :=
  .seq (.opt (.cls (· = '₹'))) (.seq wsStar (.group 1 amtRE))

/-- The context window `range(max(0, current_line - 2), min(len(lines), current_line + 3))`. -/
def ctxIndices (n i : Nat) : List Nat :=
  List.range' (i - 2) (min n (i + 3) - (i - 2))

/-- One iteration of the `_find_rate_amount_in_context` loop: keep an
already-truthy rate/amount, otherwise try the line's rate and amount
patterns (`float` of an all-comma amount raises `ValueError`, leaving the
amount unset, which the comma-filtered-empty test mirrors). -/
def findRateAmountStep (lines : List (List Char)) (acc : Option ℚ × Option ℚ) (j : Nat) :
    Option ℚ × Option ℚ :=
  let line := stripWs (lines.getD j [])
  let rate :=
    if optTruthy acc.1 then acc.1
    else
      match searchFrom rateCtxRE none 0 line with
      | some r =>
        match capGroup r.2 1 with
        | some g => if g ≠ [] then some (pyFloat g) else acc.1
        | none => acc.1
      | none => acc.1
  let amount :=
    if optTruthy acc.2 then acc.2
    else
      match searchFrom amtCtxRE none 0 line with
      | some r =>
        match capGroup r.2 1 with
        | some g =>
          if g ≠ [] then
            if g.filter (· ≠ ',') ≠ [] then some (pyFloat (g.filter (· ≠ ',')))
            else acc.2
          else acc.2
        | none => acc.2
      | none => acc.2
  (rate, amount)

/-- `UniversalInvoiceParser._find_rate_amount_in_context`. -/
def _find_rate_amount_in_context (lines : List (List Char)) (i : Nat) :
    Option ℚ × Option ℚ :=
  (ctxIndices lines.length i).foldl (findRateAmountStep lines) (none, none)

/-- The character class `[A-Za-z\s\-]` of the generic name pattern. -/
def genericNameCls (c : Char) : Bool := isAlphaAZ c || isSpaceCh c || c = '-'

/-- `UniversalInvoiceParser._extract_fabric_from_line`: name is the
stripped `re.match(r'^([A-Za-z\s\-]+)')` prefix, quantity the first
`(\d+(?:\.\d+)?)`, rate and amount come from the context search. -/
def _extract_fabric_from_line (line : List Char) (lines : List (List Char)) (i : Nat) :
    Option (List Char) × Option ℚ × Option ℚ × Option ℚ :=
  let name :=
    match mrun (.group 1 (.plusCls genericNameCls)) ⟨none, line, []⟩ with
    | st :: _ => some (stripWs ((capGroup st 1).getD []))
    | [] => none
  let qty :=
    match searchFrom (.group 1 numRE) none 0 line with
    | some r => some (pyFloat ((capGroup r.2 1).getD []))
    | none => none
  let ra := _find_rate_amount_in_context lines i
  (name, qty, ra.1, ra.2)

/-- The word alternation of the first `_clean_fabric_name` noise pattern
(IGNORECASE, alternatives in source order). -/
def noiseWordsRE : RE :=
  altL [litCI "GSTIN", litCI "GST", litCI "IGST", litCI "CGST", litCI "SGST",
    litCI "Tax", litCI "Total",
    .seq (litCI "Sub") (.seq (.opt (.cls (fun c => c = '-' || c = ' '))) (litCI "total")),
    litCI "Grand Total", litCI "Invoice", litCI "Bill", litCI "Address",
    litCI "Ship To", litCI "PIN", litCI "Pincode", litCI "Phone", litCI "Mobile",
    litCI "Email"]

/-- The eight noise patterns of `_clean_fabric_name`, in source order
(all applied with IGNORECASE and replaced by the empty string). -/
def genericNoiseREs : List RE :=
  [ .seq .wb (.seq (.group 1 noiseWordsRE) .wb)
  , .seq (repCls isAlphaAZ 2) (.seq (repCls isDigitCh 2) (.seq (repCls isAlphaAZ 5)
      (.seq (.cls isDigitCh) (.seq (.cls isAlphaAZ) (.seq (.cls isDigitCh)
        (.seq (.cls isAlphaAZ) (.cls isDigitCh)))))))
  , .seq .wb (.seq (repCls isDigitCh 6) .wb)
  , .seq .wb (.seq (.cls (· = '5')) (.seq (.cls (· = '%')) .wb))
  , .seq (.cls (· = '|')) (.seq wsStar (.seq (.cls (· = '%'))
      (.seq (.starCls (fun c => !(c = '|'))) .eol)))
  , .seq .bos (.seq (.plusCls isDigitCh) (.plusCls isSpaceCh))
  , .seq (.plusCls isSpaceCh) (.seq (.cls (· = '$')) (.seq (.plusCls isDigitCh) wsStar))
  , .seq (.plusCls isSpaceCh) (.seq (.cls (· = '§')) (.seq (.plusCls isDigitCh) wsStar)) ]

/-- The edge class `[:\-\s|]` of the final trim pattern. -/
def genericEdgeCls (c : Char) : Bool := c = ':' || c = '-' || isSpaceCh c || c = '|'

/-- `^[:\-\s|]+|[:\-\s|]+$`. -/
def genericEdgeRE : RE :=
  .alt (.seq .bos (.plusCls genericEdgeCls)) (.seq (.plusCls genericEdgeCls) .eol)

/-- The reject class of the final gate: rupee sign, digits, whitespace,
dot, comma, slash, hyphen. -/
def genericGateCls (c : Char) : Bool :=
  c = '₹' || isDigitCh c || isSpaceCh c || c = '.' || c = ',' || c = '/' || c = '-'

/-- `UniversalInvoiceParser._clean_fabric_name`: noise removal, whitespace
collapse + strip, edge trim, then the final gate (length ≥ 3 and not
entirely composed of currency/digit/space/punctuation characters). -/
def _clean_fabric_name (name : List Char) : List Char :=
  if name = [] then []
  else
    let n1 := genericNoiseREs.foldl (fun s re => pySub re [] s) name
    let n2 := stripWs (pySub (.plusCls isSpaceCh) [' '] n1)
    let n3 := pySub genericEdgeRE [] n2
    if 3 ≤ n3.length ∧ ¬ pyFullmatch (.plusCls genericGateCls) n3 then n3 else []

/-- Python truthiness of an optional string. -/
def optStrTruthy : Option (List Char) → Bool
  | none => false
  | some s => s ≠ []

/-- The per-line body of the `_parse_generic_format` loop: strip; skip
empty or short lines and lines without both a letter and a digit; extract
the four fields; emit only when all four are truthy and the cleaned name
is nonempty. -/
def genericLine (lines : List (List Char)) (i : Nat) (rawLine : List Char) :
    Option InvoiceLine :=
  let line := stripWs rawLine
  if line ≠ [] ∧ 10 ≤ line.length ∧ line.any isAlphaAZ ∧ line.any isDigitCh then
    let ex := _extract_fabric_from_line line lines i
    if optStrTruthy ex.1 ∧ optTruthy ex.2.1 ∧ optTruthy ex.2.2.1 ∧ optTruthy ex.2.2.2 then
      let clean := _clean_fabric_name (ex.1.getD [])
      if clean ≠ [] then some ⟨clean, ex.2.1, ex.2.2.2, ex.2.2.1⟩ else none
    else none
  else none

/-- `UniversalInvoiceParser._parse_generic_format`. -/
def _parse_generic_format (text : List Char) : List InvoiceLine :=
  let lines := splitOnNl text
  (List.range lines.length).filterMap (fun i => genericLine lines i (lines.getD i []))

/-! ## Helper lemmas for claim C10 -/

theorem optTruthy_some (o : Option ℚ) (h : optTruthy o = true) :
    ∃ x, o = some x ∧ x ≠ 0 := by
  cases o with
  | none => simp [optTruthy] at h
  | some x => exact ⟨x, rfl, by simpa [optTruthy] using h⟩

theorem findRateAmountStep_nonneg (lines : List (List Char))
    (acc : Option ℚ × Option ℚ) (j : Nat)
    (h1 : ∀ x, acc.1 = some x → 0 ≤ x) (h2 : ∀ x, acc.2 = some x → 0 ≤ x) :
    (∀ x, (findRateAmountStep lines acc j).1 = some x → 0 ≤ x) ∧
    (∀ x, (findRateAmountStep lines acc j).2 = some x → 0 ≤ x) := by
  unfold findRateAmountStep
  dsimp only
  constructor
  · intro x hx
    by_cases ht : optTruthy acc.1
    · rw [if_pos ht] at hx
      exact h1 x hx
    · rw [if_neg ht] at hx
      cases hs : searchFrom rateCtxRE none 0 (stripWs (lines.getD j [])) with
      | none =>
        rw [hs] at hx
        exact h1 x hx
      | some r =>
        rw [hs] at hx
        dsimp only at hx
        cases hg : capGroup r.2 1 with
        | none =>
          rw [hg] at hx
          exact h1 x hx
        | some g =>
          rw [hg] at hx
          dsimp only at hx
          by_cases hge : g ≠ []
          · rw [if_pos hge] at hx
            injection hx with hv
            rw [← hv]
            exact pyFloat_nonneg g
          · rw [if_neg hge] at hx
            exact h1 x hx
  · intro x hx
    by_cases ht : optTruthy acc.2
    · rw [if_pos ht] at hx
      exact h2 x hx
    · rw [if_neg ht] at hx
      cases hs : searchFrom amtCtxRE none 0 (stripWs (lines.getD j [])) with
      | none =>
        rw [hs] at hx
        exact h2 x hx
      | some r =>
        rw [hs] at hx
        dsimp only at hx
        cases hg : capGroup r.2 1 with
        | none =>
          rw [hg] at hx
          exact h2 x hx
        | some g =>
          rw [hg] at hx
          dsimp only at hx
          by_cases hge : g ≠ []
          · rw [if_pos hge] at hx
            by_cases hg2 : g.filter (· ≠ ',') ≠ []
            · rw [if_pos hg2] at hx
              injection hx with hv
              rw [← hv]
              exact pyFloat_nonneg _
            · rw [if_neg hg2] at hx
              exact h2 x hx
          · rw [if_neg hge] at hx
            exact h2 x hx

theorem findRateAmount_fold_nonneg (lines : List (List Char)) :
    ∀ (js : List Nat) (acc : Option ℚ × Option ℚ),
      (∀ x, acc.1 = some x → 0 ≤ x) → (∀ x, acc.2 = some x → 0 ≤ x) →
      (∀ x, (js.foldl (findRateAmountStep lines) acc).1 = some x → 0 ≤ x) ∧
      (∀ x, (js.foldl (findRateAmountStep lines) acc).2 = some x → 0 ≤ x)
  | [], acc, h1, h2 => ⟨h1, h2⟩
  | j :: js, acc, h1, h2 => by
    rw [List.foldl_cons]
    obtain ⟨g1, g2⟩ := findRateAmountStep_nonneg lines acc j h1 h2
    exact findRateAmount_fold_nonneg lines js _ g1 g2

theorem findRateAmount_nonneg (lines : List (List Char)) (i : Nat) :
    (∀ x, (_find_rate_amount_in_context lines i).1 = some x → 0 ≤ x) ∧
    (∀ x, (_find_rate_amount_in_context lines i).2 = some x → 0 ≤ x) := by
  unfold _find_rate_amount_in_context
  exact findRateAmount_fold_nonneg lines (ctxIndices lines.length i) (none, none)
    (by intro x hx; exact absurd hx (by simp))
    (by intro x hx; exact absurd hx (by simp))

theorem extract_qty_nonneg (line : List Char) (lines : List (List Char)) (i : Nat) :
    ∀ x, (_extract_fabric_from_line line lines i).2.1 = some x → 0 ≤ x := by
  unfold _extract_fabric_from_line
  dsimp only
  intro x hx
  cases hs : searchFrom (.group 1 numRE) none 0 line with
  | none =>
    rw [hs] at hx
    exact absurd hx (by simp)
  | some r =>
    rw [hs] at hx
    dsimp only at hx
    injection hx with hv
    rw [← hv]
    exact pyFloat_nonneg _

set_option maxHeartbeats 1000000 in
/-- **Claim C10.** Every invoice line the generic fallback parser emits has
non-null, strictly positive quantity, rate and amount: the truthiness guard
`if name and qty and rate and amount` rejects missing and zero fields, and
every parsed numeric is nonnegative. -/
theorem c10_generic_positive_fields (text : List Char) (item : InvoiceLine)
    (h : item ∈ _parse_generic_format text) :
    (∃ q, item.quantity = some q ∧ 0 < q) ∧
    (∃ r, item.rate = some r ∧ 0 < r) ∧
    (∃ a, item.amount = some a ∧ 0 < a) := by
  unfold _parse_generic_format at h
  dsimp only at h
  rw [List.mem_filterMap] at h
  obtain ⟨i, hi, hgl⟩ := h
  unfold genericLine at hgl
  dsimp only at hgl
  split_ifs at hgl with hcond htruth hclean
  · obtain ⟨htn, htq, htr, hta⟩ := htruth
    obtain ⟨q, hq, hq0⟩ := optTruthy_some _ htq
    obtain ⟨r, hr, hr0⟩ := optTruthy_some _ htr
    obtain ⟨a, ha, ha0⟩ := optTruthy_some _ hta
    injection hgl with hv
    rw [← hv]
    refine ⟨⟨q, hq, ?_⟩, ⟨r, hr, ?_⟩, ⟨a, ha, ?_⟩⟩
    · exact lt_of_le_of_ne
        (extract_qty_nonneg _ (splitOnNl text) i q hq) (Ne.symm hq0)
    · exact lt_of_le_of_ne
        ((findRateAmount_nonneg (splitOnNl text) i).1 r hr) (Ne.symm hr0)
    · exact lt_of_le_of_ne
        ((findRateAmount_nonneg (splitOnNl text) i).2 a ha) (Ne.symm ha0)

/-- **Witness for claim C10** on the line `"Silk A 2 per mtr"`. -/
theorem c10_generic_positive_fields_witness :
    (∃ q, (⟨str "Silk A", some 2, some 2, some 2⟩ : InvoiceLine).quantity = some q ∧ 0 < q) ∧
    (∃ r, (⟨str "Silk A", some 2, some 2, some 2⟩ : InvoiceLine).rate = some r ∧ 0 < r) ∧
    (∃ a, (⟨str "Silk A", some 2, some 2, some 2⟩ : InvoiceLine).amount = some a ∧ 0 < a) :=
  c10_generic_positive_fields (str "Silk A 2 per mtr") _ (by with_unfolding_all decide)

/-! ## Claim C3: idempotence of the normalizer -/

/-- No two adjacent whitespace characters. -/
def noAdjSp : List Char → Bool
  | c :: d :: cs => !(isSpaceCh c && isSpaceCh d) && noAdjSp (d :: cs)
  | _ => true

theorem catList_chunksGo (cl : Char → Bool) :
    ∀ (cs : List Char) (r : Char) (acc : List Char),
      catList (chunksGo cl r acc cs) = acc.reverse ++ cs
  | [], r, acc => by simp [chunksGo, catList]
  | c :: cs, r, acc => by
    unfold chunksGo
    by_cases h : (cl c == cl r) = true
    · rw [if_pos h, catList_chunksGo cl cs r (c :: acc)]
      simp
    · rw [if_neg h]
      have hc : catList (acc.reverse :: chunksGo cl c [c] cs) =
          acc.reverse ++ catList (chunksGo cl c [c] cs) := rfl
      rw [hc, catList_chunksGo cl cs c [c]]
      simp

theorem catList_chunksBy (cl : Char → Bool) (l : List Char) :
    catList (chunksBy cl l) = l := by
  cases l with
  | nil => rfl
  | cons c cs =>
    unfold chunksBy
    rw [catList_chunksGo cl cs c [c]]
    simp

theorem catList_map_chunksBy (cl : Char → Bool) (f : List Char → List Char) (l : List Char)
    (h : ∀ g ∈ chunksBy cl l, f g = g) :
    catList ((chunksBy cl l).map f) = l := by
  rw [show (chunksBy cl l).map f = (chunksBy cl l).map id from
    List.map_congr_left (by intro g hg; rw [h g hg]; rfl), List.map_id]
  exact catList_chunksBy cl l

theorem sub_digits12_id (y : List Char)
    (h : ∀ g ∈ chunksBy isWordCh y, ¬(g.length ≤ 2 ∧ g.all isDigitCh = true)) :
    sub_digits12 y = y := by
  unfold sub_digits12
  apply catList_map_chunksBy
  intro g hg
  rw [if_neg]
  rintro ⟨-, h1, h2⟩
  exact h g hg ⟨h1, h2⟩

theorem map_lowerCh_id (y : List Char) (h : ∀ c ∈ y, isUpperAZ c = false) :
    y.map lowerCh = y := by
  rw [show y.map lowerCh = y.map id from
    List.map_congr_left (by intro c hc; simp [lowerCh, h c hc]), List.map_id]

theorem sub_punct_id (y : List Char)
    (h : ∀ c ∈ y, isWordCh c = true ∨ c = ' ' ∨ c = '-') :
    sub_punct y = y := by
  unfold sub_punct
  rw [show (y.map fun c =>
      if isWordCh c = false ∧ isSpaceCh c = false ∧ c ≠ '-' then ' ' else c) = y.map id from
    List.map_congr_left ?_, List.map_id]
  intro c hc
  show (if isWordCh c = false ∧ isSpaceCh c = false ∧ c ≠ '-' then ' ' else c) = c
  rcases h c hc with hw | hs | hh
  · rw [if_neg]
    rintro ⟨h1, -, -⟩
    rw [hw] at h1
    exact absurd h1 (by simp)
  · rw [hs, if_neg]
    rintro ⟨-, h2, -⟩
    exact absurd h2 (by decide)
  · rw [hh, if_neg]
    rintro ⟨-, -, h3⟩
    exact h3 rfl

theorem sub_five_pct_step (p : Option Char) (c : Char) (cs : List Char)
    (h : cs.head? ≠ some '%') :
    sub_five_pct p (c :: cs) = c :: sub_five_pct (some c) cs := by
  rw [sub_five_pct.eq_def]
  split
  · rename_i heq
    exact absurd heq (by simp)
  · rename_i heq
    injection heq with h1 h2
    rw [h2] at h
    exact absurd rfl h
  · rename_i heq
    injection heq with h1 h2
    rw [h1, h2]

theorem sub_five_pct_id : ∀ (l : List Char) (p : Option Char),
    '%' ∉ l → sub_five_pct p l = l
  | [], _, _ => rfl
  | c :: cs, p, h => by
    have hhd : cs.head? ≠ some '%' := by
      intro he
      exact h (List.mem_cons_of_mem c (List.mem_of_mem_head? he))
    rw [sub_five_pct_step p c cs hhd,
      sub_five_pct_id cs (some c) (fun m => h (List.mem_cons_of_mem c m))]

theorem sub_hsn_step (p : Option Char) (c : Char) (cs : List Char)
    (hc : isUpperAZ c = false) :
    sub_hsn p (c :: cs) = c :: sub_hsn (some c) cs := by
  rw [sub_hsn.eq_def]
  split
  · rename_i heq
    exact absurd heq (by simp)
  · rename_i heq
    injection heq with h1 h2
    rw [if_neg]
    · rw [h1, h2]
    · rintro ⟨-, hs⟩
      rw [← h1] at hs
      unfold hsnShape at hs
      dsimp only at hs
      rw [hc] at hs
      simp at hs
  · rename_i heq
    injection heq with h1 h2
    rw [h1, h2]

theorem sub_hsn_id : ∀ (l : List Char) (p : Option Char),
    (∀ c ∈ l, isUpperAZ c = false) → sub_hsn p l = l
  | [], _, _ => rfl
  | c :: cs, p, h => by
    rw [sub_hsn_step p c cs (h c (by simp)),
      sub_hsn_id cs (some c) (fun d hd => h d (by simp [hd]))]

theorem noAdjSp_parts (c d : Char) (cs : List Char) (h : noAdjSp (c :: d :: cs) = true) :
    ¬(isSpaceCh c = true ∧ isSpaceCh d = true) ∧ noAdjSp (d :: cs) = true := by
  unfold noAdjSp at h
  rw [Bool.and_eq_true, Bool.not_eq_true'] at h
  refine ⟨?_, h.2⟩
  rintro ⟨h1, h2⟩
  have h3 := h.1
  rw [h1, h2] at h3
  simp at h3

theorem noAdjSp_congr_head (r c : Char) (cs : List Char) (h : isSpaceCh r = isSpaceCh c)
    (h2 : noAdjSp (c :: cs) = true) : noAdjSp (r :: cs) = true := by
  cases cs with
  | nil => rfl
  | cons d ds =>
    unfold noAdjSp at h2 ⊢
    rw [h]
    exact h2

theorem catList_cons (x : List Char) (l : List (List Char)) :
    catList (x :: l) = x ++ catList l := rfl

theorem collapse_go (cs : List Char) : ∀ (r : Char) (acc : List Char),
    (∀ c ∈ r :: cs, isSpaceCh c = true → c = ' ') →
    noAdjSp (r :: cs) = true →
    acc ≠ [] →
    (∀ a ∈ acc, isSpaceCh a = isSpaceCh r) →
    (isSpaceCh r = true → acc = [r]) →
    catList ((chunksGo isSpaceCh r acc cs).map
      (fun g => if g.head?.elim false isSpaceCh = true then [' '] else g)) =
      acc.reverse ++ cs := by
  induction cs with
  | nil =>
    intro r acc hblank hadj hne hcls hsp
    have h0 : chunksGo isSpaceCh r acc [] = [acc.reverse] := rfl
    rw [h0]
    by_cases hr : isSpaceCh r = true
    · rw [hsp hr, hblank r (by simp) hr]
      simp [catList]
    · have hrf : isSpaceCh r = false := by revert hr; cases isSpaceCh r <;> simp
      obtain ⟨a, as, ha⟩ :=
        List.exists_cons_of_ne_nil (show acc.reverse ≠ [] by simpa using hne)
      have haRmem : a ∈ acc := by
        have hm : a ∈ acc.reverse := by rw [ha]; simp
        simpa using hm
      have hcl : isSpaceCh a = false := by rw [hcls a haRmem, hrf]
      rw [ha]
      have hf : (if ((a :: as).head?.elim false isSpaceCh) = true then [' ']
          else (a :: as)) = a :: as := by
        rw [show ((a :: as).head?.elim false isSpaceCh) = isSpaceCh a from rfl, hcl]
        simp
      simp only [List.map_cons, List.map_nil]
      rw [hf]
      simp [catList]
  | cons c cs ih =>
    intro r acc hblank hadj hne hcls hsp
    obtain ⟨hpair, hadj2⟩ := noAdjSp_parts r c cs hadj
    have hb2 : ∀ d ∈ c :: cs, isSpaceCh d = true → d = ' ' :=
      fun d hd => hblank d (List.mem_cons_of_mem r hd)
    unfold chunksGo
    by_cases h : (isSpaceCh c == isSpaceCh r) = true
    · rw [if_pos h]
      have heq : isSpaceCh c = isSpaceCh r := by simpa using h
      by_cases hr : isSpaceCh r = true
      · have hcsp : isSpaceCh c = true := by rw [heq]; exact hr
        exact absurd ⟨hr, hcsp⟩ hpair
      · have hrf : isSpaceCh r = false := by revert hr; cases isSpaceCh r <;> simp
        have hcl2 : ∀ a ∈ c :: acc, isSpaceCh a = isSpaceCh r := by
          intro a ha2
          rcases List.mem_cons.mp ha2 with rfl | ha3
          · exact heq
          · exact hcls a ha3
        have hsp2 : isSpaceCh r = true → c :: acc = [r] := by
          intro hcsp
          rw [hrf] at hcsp
          exact absurd hcsp (by simp)
        have hb3 : ∀ d ∈ r :: cs, isSpaceCh d = true → d = ' ' := by
          intro d hd hds
          rcases List.mem_cons.mp hd with rfl | hd2
          · rw [hrf] at hds
            exact absurd hds (by simp)
          · exact hblank d (by simp [hd2]) hds
        have hadj3 : noAdjSp (r :: cs) = true := noAdjSp_congr_head r c cs heq.symm hadj2
        have hstep := ih r (c :: acc) hb3 hadj3 (by simp) hcl2 hsp2
        rw [hstep]
        simp
    · rw [if_neg h]
      have hcl2 : ∀ a ∈ [c], isSpaceCh a = isSpaceCh c := by
        intro a ha2
        rcases List.mem_cons.mp ha2 with rfl | ha3
        · rfl
        · exact absurd ha3 (by simp)
      have hstep := ih c [c] hb2 hadj2 (by simp) hcl2 (fun _ => rfl)
      rw [List.map_cons, catList_cons, hstep]
      by_cases hr : isSpaceCh r = true
      · rw [hsp hr, hblank r (by simp) hr]
        simp
      · have hrf : isSpaceCh r = false := by revert hr; cases isSpaceCh r <;> simp
        obtain ⟨a, as, ha⟩ :=
          List.exists_cons_of_ne_nil (show acc.reverse ≠ [] by simpa using hne)
        have haRmem : a ∈ acc := by
          have hm : a ∈ acc.reverse := by rw [ha]; simp
          simpa using hm
        have hcl : isSpaceCh a = false := by rw [hcls a haRmem, hrf]
        rw [ha]
        rw [show (a :: as).head?.elim false isSpaceCh = isSpaceCh a from rfl, hcl]
        simp

theorem collapse_ws_id (y : List Char)
    (hblank : ∀ c ∈ y, isSpaceCh c = true → c = ' ')
    (hadj : noAdjSp y = true) :
    collapse_ws y = y := by
  cases y with
  | nil => rfl
  | cons c cs =>
    unfold collapse_ws chunksBy
    have hcl : ∀ a ∈ [c], isSpaceCh a = isSpaceCh c := by
      intro a ha2
      rcases List.mem_cons.mp ha2 with rfl | ha3
      · rfl
      · exact absurd ha3 (by simp)
    rw [collapse_go cs c [c] hblank hadj (by simp) hcl (fun _ => rfl)]
    rfl

theorem sub_edge_hyphens_id (y : List Char)
    (hh : y.head? ≠ some '-') (hl : y.getLast? ≠ some '-') (hn : '\n' ∉ y) :
    sub_edge_hyphens y = y := by
  have h1 : y.dropWhile (· = '-') = y := by
    cases y with
    | nil => rfl
    | cons c cs =>
      apply List.dropWhile_cons_of_neg
      intro hcd
      apply hh
      rw [show c = '-' from by simpa using hcd]
      rfl
  have h2 : y.rdropWhile (· = '-') = y := by
    apply List.rdropWhile_eq_self_iff.mpr
    intro hy
    rw [List.getLast?_eq_getLast y hy] at hl
    intro hlast
    apply hl
    rw [show y.getLast hy = '-' from by simpa using hlast]
  unfold sub_edge_hyphens
  dsimp only
  rw [h1]
  split
  · rename_i heq
    exfalso
    apply hn
    have h3 := List.getLast?_eq_getLast y (by rintro rfl; simp at heq)
    rw [h3] at heq
    injection heq with h4
    rw [← h4]
    exact List.getLast_mem _
  · exact h2

/-- **Claim C3, counterexample.** The normalizer is not idempotent:
`normalize("a -") = "a "` (the strip runs before the edge-hyphen removal,
which exposes a fresh trailing space), and renormalizing strips it to
`"a"`. -/
theorem c3_counterexample :
    normalize_string (str "a -") = str "a " ∧
    normalize_string (str "a ") = str "a" ∧
    normalize_string (normalize_string (str "a -")) ≠ normalize_string (str "a -") := by
  refine ⟨by decide, by decide, ?_⟩
  intro h
  rw [show normalize_string (str "a -") = str "a " from by decide] at h
  rw [show normalize_string (str "a ") = str "a" from by decide] at h
  exact absurd h (by decide)

/-- **Claim C3 (amended).** The normalizer is the identity — hence
idempotence holds — on every canonical string: one whose characters are
word characters, plain spaces or hyphens, with no uppercase letter, no two
adjacent spaces, no leading or trailing whitespace or hyphen, and no
isolated all-digit token of length ≤ 2.  (Outputs of `normalize_string`
satisfy all of these except that the final edge-hyphen removal can expose
leading or trailing spaces — the exact situation of the counterexample.) -/
theorem c3_normalize_idempotent_canonical (y : List Char)
    (hcs : ∀ c ∈ y, isWordCh c = true ∨ c = ' ' ∨ c = '-')
    (hlow : ∀ c ∈ y, isUpperAZ c = false)
    (hadj : noAdjSp y = true)
    (hstr : stripWs y = y)
    (hhd : y.head? ≠ some '-')
    (htl : y.getLast? ≠ some '-')
    (hdig : ∀ g ∈ chunksBy isWordCh y, ¬(g.length ≤ 2 ∧ g.all isDigitCh = true)) :
    normalize_string y = y := by
  have hpct : '%' ∉ y := by
    intro hm
    rcases hcs '%' hm with h | h | h
    · exact absurd h (by decide)
    · exact absurd h (by decide)
    · exact absurd h (by decide)
  have hnl : '\n' ∉ y := by
    intro hm
    rcases hcs '\n' hm with h | h | h
    · exact absurd h (by decide)
    · exact absurd h (by decide)
    · exact absurd h (by decide)
  have hblank : ∀ c ∈ y, isSpaceCh c = true → c = ' ' := by
    intro c hc hsp
    rcases hcs c hc with h | h | h
    · exfalso
      have hd := hsp
      simp [isSpaceCh] at hd
      rcases hd with ((((rfl | rfl) | rfl) | rfl) | rfl) | rfl <;> exact absurd h (by decide)
    · exact h
    · rw [h] at hsp
      exact absurd hsp (by decide)
  unfold normalize_string
  rw [map_lowerCh_id y hlow,
    sub_digits12_id y hdig,
    sub_five_pct_id y none hpct,
    sub_hsn_id y none hlow,
    sub_punct_id y hcs,
    collapse_ws_id y hblank hadj,
    collapse_ws_id y hblank hadj,
    hstr,
    sub_edge_hyphens_id y hhd htl hnl]

/-- **Witness for the amended claim C3** at the canonical string
`"blue velvet"`. -/
theorem c3_normalize_idempotent_canonical_witness :
    normalize_string (str "blue velvet") = str "blue velvet" :=
  c3_normalize_idempotent_canonical (str "blue velvet")
    (by decide) (by decide) (by decide) (by decide) (by decide) (by decide) (by decide)
